import Mathlib

/-!
# The initial FreeBSD stack image built by `setup_initial_stack`

A shallow embedding of `bsd-user/freebsd/target_os_stack.h`.

* Guest addresses (`abi_ulong`) are natural numbers reduced modulo `2 ^ 32` or
  `2 ^ 64` after every arithmetic step, as unsigned C arithmetic does.
* Guest memory is a function from addresses to bytes together with a
  predicate telling which addresses may be written.
* Every guest access issued by the function is appended to a trace, so that
  statements about *which* writes happen, and in which order, can be made.
-/

namespace TargetOsStack

/-! ## Target parameters -/

/-- Constants and types the source takes from other headers: the width of
`abi_ulong` / `abi_long` (`TARGET_ABI_BITS`), the target byte order, the signal
trampoline (`TARGET_SZSIGCODE` is defined exactly when `sigcode` is `some code`
and then equals `code.length`), `TARGET_ARG_MAX`, `TARGET_SPACE_USRSPACE` and
`TARGET_PAGE_SIZE`. -/
structure Config where
  abi64 : Bool
  bigEndian : Bool
  sigcode : Option (List Nat)
  argMax : Nat
  usrSpace : Nat
  pageSize : Nat

/-- The value of `sizeof(abi_ulong)` (and of `sizeof(abi_long)`). -/
def Config.W (cfg : Config) : Nat := if cfg.abi64 then 8 else 4

/-- The number of values of an `abi_ulong`: `2 ^ 64` or `2 ^ 32`. -/
def Config.modulus (cfg : Config) : Nat :=
  if cfg.abi64 then 18446744073709551616 else 4294967296

/-- The number of values of the host `size_t` (an LP64 host). -/
def sizeMod : Nat := 18446744073709551616

/-- Conversion of a host integer to `abi_ulong`. -/
def to_ul (cfg : Config) (x : Nat) : Nat := x % cfg.modulus

/-- The C expression `p - n` for `p` of type `abi_ulong`. -/
def sub_ul (cfg : Config) (p n : Nat) : Nat :=
  (p % cfg.modulus + cfg.modulus - n % cfg.modulus) % cfg.modulus

/-- The C expression `p + n` for `p` of type `abi_ulong`. -/
def add_ul (cfg : Config) (p n : Nat) : Nat := (p + n) % cfg.modulus

/-- The macro `roundup(x, y)` of `<sys/param.h>`, `((((x)+((y)-1))/(y))*(y))`.
The source evaluates it in `size_t`; `roundup_size_t` shows that, once the
result is converted to `abi_ulong`, the `size_t` wrap-around makes no
difference. -/
def roundup (x y : Nat) : Nat := (x + (y - 1)) / y * y

/-- The macro `roundup(x, y)` with every operation reduced modulo the range of
`size_t`. -/
def roundup_wrapping (x y : Nat) : Nat := (((x + (y - 1)) % sizeMod) / y * y) % sizeMod

/-! ## Host strings and the launch request -/

/-- A host C string: the bytes before its terminating NUL. -/
abbrev CStr := List Nat

/-- The C function `strlen`. -/
def strlen (s : CStr) : Nat := s.length

/-- The `strlen(s) + 1` bytes a copy of the string reads: the string and its
terminator. -/
def cbytes (s : CStr) : List Nat := s ++ [0]

/-- The fields of `struct bsd_binprm` read by the function; `argc` and `envc`
are the lengths of the two vectors. -/
structure BsdBinprm where
  fullpath : Option CStr
  argv : List CStr
  envp : List CStr

/-- The field `argc`. -/
def BsdBinprm.argc (b : BsdBinprm) : Nat := b.argv.length

/-- The field `envc`. -/
def BsdBinprm.envc (b : BsdBinprm) : Nat := b.envp.length

/-! ## Guest memory -/

/-- What a guest access is for. -/
inductive Kind where
  | sigcode | execpath | canary | pagesizes | string | vector | nullptr | psstrings
  deriving DecidableEq

/-- One guest access: its purpose, first address, length, and whether the
guest memory writer accepted it. -/
structure Access where
  kind : Kind
  addr : Nat
  len : Nat
  ok : Bool
  deriving DecidableEq

/-- Guest memory and the accesses issued so far, most recent first. -/
structure Guest where
  mem : Nat → Nat
  trace : List Access

/-- All `len` bytes from `addr` on may be written. -/
def writable_range (w : Nat → Bool) (addr len : Nat) : Bool :=
  (List.range len).all (fun i => w (addr + i))

/-- Memory after the bytes `src` are stored from `dest` on. -/
def store_bytes (mem : Nat → Nat) (dest : Nat) (src : List Nat) : Nat → Nat :=
  fun a => if dest ≤ a ∧ a < dest + src.length then src.getD (a - dest) 0 else mem a

/-- Modelled from the spec: `memcpy_to_target` is not in the source file. The
Guest Memory Writer `writeBytes(addr, bytes)` either stores all the bytes or
reports a fault and stores nothing; it faults when some byte of the range is
not writable. The result is `true` when the C function returns non-zero. -/
def memcpy_to_target (w : Nat → Bool) (k : Kind) (g : Guest) (dest : Nat) (src : List Nat) :
    Bool × Guest :=
  if writable_range w dest src.length then
    (false, ⟨store_bytes g.mem dest src, ⟨k, dest, src.length, true⟩ :: g.trace⟩)
  else
    (true, ⟨g.mem, ⟨k, dest, src.length, false⟩ :: g.trace⟩)

/-- The `n` low bytes of `v`, least significant first. -/
def le_bytes : Nat → Nat → List Nat
  | 0, _ => []
  | n + 1, v => (v % 256) :: le_bytes n (v / 256)

/-- The number whose bytes, least significant first, are `bs`. -/
def le_value : List Nat → Nat
  | [] => 0
  | b :: bs => b + 256 * le_value bs

/-- The `n` bytes of a scalar in target byte order. -/
def scalar_bytes (cfg : Config) (n v : Nat) : List Nat :=
  if cfg.bigEndian then (le_bytes n v).reverse else le_bytes n v

/-- The scalar whose bytes in target byte order are `bs`. -/
def scalar_value (cfg : Config) (bs : List Nat) : Nat :=
  if cfg.bigEndian then le_value bs.reverse else le_value bs

/-- Modelled from the spec: `put_user_ual` is not in the source file. The Guest
Memory Writer `writeWord(addr, value)` stores one target word in target byte
order, or faults. -/
def put_user_ual (cfg : Config) (w : Nat → Bool) (k : Kind) (g : Guest) (v addr : Nat) :
    Bool × Guest :=
  memcpy_to_target w k g addr (scalar_bytes cfg cfg.W v)

/-- Modelled from the spec: `setup_sigtramp` is not in the source file. The
Signal Trampoline Installer emits the fixed-size code fragment at the given
address, or faults. -/
def setup_sigtramp (w : Nat → Bool) (g : Guest) (addr : Nat) (code : List Nat) : Bool × Guest :=
  memcpy_to_target w Kind.sigcode g addr code

/-- The `n` bytes of memory from `a` on. -/
def read_bytes (mem : Nat → Nat) (a n : Nat) : List Nat :=
  (List.range n).map (fun i => mem (a + i))

/-- The target word stored at `a`. -/
def read_ual (cfg : Config) (mem : Nat → Nat) (a : Nat) : Nat :=
  scalar_value cfg (read_bytes mem a cfg.W)

/-- The 32-bit scalar stored at `a`. -/
def read_u32 (cfg : Config) (mem : Nat → Nat) (a : Nat) : Nat :=
  scalar_value cfg (read_bytes mem a 4)

/-! ## The summary record -/

/-- Modelled from the spec: `struct target_ps_strings` is declared in another
header. It holds the guest address and the count of the argument pointer table,
then the guest address and the count of the environment pointer table; the
addresses are target words and the counts 32-bit, each field aligned to its
size. The values are those of the fields after `tswapl` / `tswap32`, that is,
as the target reads them. -/
structure PsStrings where
  ps_argvstr : Nat
  ps_nargvstr : Nat
  ps_envstr : Nat
  ps_nenvstr : Nat

/-- The value of `sizeof(struct target_ps_strings)`. -/
def sizeof_ps_strings (cfg : Config) : Nat := 4 * cfg.W

/-- Offset of `ps_nargvstr` in the record. -/
def off_nargvstr (cfg : Config) : Nat := cfg.W

/-- Offset of `ps_envstr` in the record. -/
def off_envstr (cfg : Config) : Nat := 2 * cfg.W

/-- Offset of `ps_nenvstr` in the record. -/
def off_nenvstr (cfg : Config) : Nat := 3 * cfg.W

/-- The padding after a 32-bit count at offset `off` of the record: the bytes
the host stack held there. -/
def ps_padding (cfg : Config) (junk : Nat → Nat) (off : Nat) : List Nat :=
  (List.range (cfg.W - 4)).map (fun i => junk (off + 4 + i))

/-- The bytes of the local `ps_strs` as `memcpy_to_target` reads them. The
record is never initialised as a whole, so its padding bytes are whatever the
host stack held (`junk`, indexed by the offset in the record). -/
def ps_bytes (cfg : Config) (junk : Nat → Nat) (ps : PsStrings) : List Nat :=
  scalar_bytes cfg cfg.W ps.ps_argvstr
    ++ scalar_bytes cfg 4 ps.ps_nargvstr ++ ps_padding cfg junk (off_nargvstr cfg)
    ++ scalar_bytes cfg cfg.W ps.ps_envstr
    ++ scalar_bytes cfg 4 ps.ps_nenvstr ++ ps_padding cfg junk (off_nenvstr cfg)

/-- The record stored at `a`, as the target reads it. -/
def read_ps_strings (cfg : Config) (mem : Nat → Nat) (a : Nat) : PsStrings :=
  { ps_argvstr := read_ual cfg mem a
    ps_nargvstr := read_u32 cfg mem (a + off_nargvstr cfg)
    ps_envstr := read_ual cfg mem (a + off_envstr cfg)
    ps_nenvstr := read_u32 cfg mem (a + off_nenvstr cfg) }

/-! ## The function -/

/-- What the function reads besides its arguments: the globals `target_stkbas`
and `target_stksiz`, which guest addresses are writable, the bytes
`arc4random_buf` delivers, and the bytes the host stack holds where the padding
of `ps_strs` lies. -/
structure Machine where
  target_stkbas : Nat
  target_stksiz : Nat
  writable : Nat → Bool
  arc4random : Nat → Nat
  junk : Nat → Nat

/-- The values `errno` is set to. -/
inductive Errno where
  | EFAULT | ENOMEM
  deriving DecidableEq

/-- The observable outcome of a call: the return value, the value `errno` was
set to (if it was set), the value stored through `ret_addr` (if a store
happened), and the guest. -/
structure Result where
  rc : Int
  errno : Option Errno
  ret : Option Nat
  guest : Guest

/-- The exit `errno = EFAULT; return -1;`. -/
def fail_efault (g : Guest) : Result := ⟨-1, some Errno.EFAULT, none, g⟩

/-- The exit `errno = ENOMEM; return -1;`. -/
def fail_enomem (g : Guest) : Result := ⟨-1, some Errno.ENOMEM, none, g⟩

/-- The value of `stack_hi_addr` (line 37). -/
def stack_hi_addr (cfg : Config) (m : Machine) : Nat :=
  to_ul cfg (m.target_stkbas + m.target_stksiz)

/-- The array `canary` after `arc4random_buf(canary, sizeof(canary))`. -/
def canary_bytes (cfg : Config) (m : Machine) : List Nat :=
  (List.range (cfg.W * 8)).map m.arc4random

/-- Lines 37-73: the summary record's slot is reserved, then the trampoline,
the executable path, the canary and the page-size word are written, the cursor
`p` moving down. The result is `(failed, guest, p)`. -/
def fixed_area (cfg : Config) (m : Machine) (bprm : BsdBinprm) (g : Guest) :
    Bool × Guest × Nat :=
  let p := stack_hi_addr cfg m
  let p := sub_ul cfg p (sizeof_ps_strings cfg)
  let p := match cfg.sigcode with
    | none => p
    | some code => sub_ul cfg p code.length
  let r := match cfg.sigcode with
    | none => (false, g)
    | some code => setup_sigtramp m.writable g p code
  if r.1 then (true, r.2, p) else
  let p := match bprm.fullpath with
    | none => p
    | some path => sub_ul cfg p (roundup (strlen path + 1) cfg.W)
  let r := match bprm.fullpath with
    | none => (false, r.2)
    | some path => memcpy_to_target m.writable Kind.execpath r.2 p (cbytes path)
  if r.1 then (true, r.2, p) else
  let p := sub_ul cfg p (roundup (cfg.W * 8) cfg.W)
  let r := memcpy_to_target m.writable Kind.canary r.2 p (canary_bytes cfg m)
  if r.1 then (true, r.2, p) else
  let p := sub_ul cfg p cfg.W
  let r := put_user_ual cfg m.writable Kind.pagesizes r.2 cfg.pageSize p
  (r.1, r.2, p)

/-- Lines 75-81: the two loops adding `strlen + 1` of every string to
`stringspace`. Host strings lie in host memory, so the `size_t` sum cannot
wrap. -/
def stringspace (bprm : BsdBinprm) : Nat :=
  bprm.envp.foldl (fun acc s => acc + (strlen s + 1))
    (bprm.argv.foldl (fun acc s => acc + (strlen s + 1)) 0)

/-- The common body of the loops of lines 102-115 and 126-139: each string is
copied to `destp` with its terminator, its address is stored in the pointer
table slot `vecp`, and both cursors advance. The result is
`(failed, guest, destp, vecp)`. -/
def copyout_strings (cfg : Config) (w : Nat → Bool) :
    List CStr → Guest → Nat → Nat → Bool × Guest × Nat × Nat
  | [], g, destp, vecp => (false, g, destp, vecp)
  | s :: rest, g, destp, vecp =>
    let len := strlen s + 1
    let r := memcpy_to_target w Kind.string g destp (cbytes s)
    if r.1 then (true, r.2, destp, vecp) else
    let r := put_user_ual cfg w Kind.vector r.2 destp vecp
    if r.1 then (true, r.2, destp, vecp) else
    copyout_strings cfg w rest r.2 (add_ul cfg destp len) (add_ul cfg vecp cfg.W)

/-- The value of `argvp` after line 89, from the cursor left by line 68. -/
def argv_base (cfg : Config) (p : Nat) : Nat := sub_ul cfg p cfg.usrSpace

/-- The value of `p` and `destp` after line 90, from the cursor left by
line 68. -/
def dest_base (cfg : Config) (p : Nat) : Nat :=
  to_ul cfg (roundup (sub_ul cfg (sub_ul cfg p cfg.usrSpace) cfg.argMax) cfg.W)

/-- The function `setup_initial_stack`. `ret_addr` tells whether the pointer
`ret_addr` is non-null. -/
def setup_initial_stack (cfg : Config) (m : Machine) (bprm : BsdBinprm) (ret_addr : Bool)
    (g : Guest) : Result :=
  let fa := fixed_area cfg m bprm g
  if fa.1 then fail_efault fa.2.1 else
  if stringspace bprm > cfg.argMax then fail_enomem fa.2.1 else
  let argvp := argv_base cfg fa.2.2
  let p := dest_base cfg fa.2.2
  let destp := p
  let envp := add_ul cfg argvp ((bprm.argc + 1) * cfg.W)
  let ps_argvstr := argvp
  let ps_nargvstr := bprm.argc % 4294967296
  let la := copyout_strings cfg m.writable bprm.argv fa.2.1 destp argvp
  if la.1 then fail_efault la.2.1 else
  let r := put_user_ual cfg m.writable Kind.nullptr la.2.1 0 la.2.2.2
  if r.1 then fail_efault r.2 else
  let ps_envstr := envp
  let ps_nenvstr := bprm.envc % 4294967296
  let le := copyout_strings cfg m.writable bprm.envp r.2 la.2.2.1 envp
  if le.1 then fail_efault le.2.1 else
  let r := put_user_ual cfg m.writable Kind.nullptr le.2.1 0 le.2.2.2
  if r.1 then fail_efault r.2 else
  let ps_strs : PsStrings := ⟨ps_argvstr, ps_nargvstr, ps_envstr, ps_nenvstr⟩
  let r := memcpy_to_target m.writable Kind.psstrings r.2
    (sub_ul cfg (stack_hi_addr cfg m) (sizeof_ps_strings cfg)) (ps_bytes cfg m.junk ps_strs)
  if r.1 then fail_efault r.2 else
  ⟨0, none, if ret_addr then some p else none, r.2⟩

/-! ## The writes of a call as a list

The definitions below are not part of the source: they describe the sequence
of guest writes a call issues, and the theorems relate them to
`setup_initial_stack`. -/

/-- A guest write: its purpose, destination and bytes. -/
structure Wr where
  kind : Kind
  addr : Nat
  bytes : List Nat

/-- The trace entry of a write. -/
def Wr.access (x : Wr) (ok : Bool) : Access := ⟨x.kind, x.addr, x.bytes.length, ok⟩

/-- The address `a` is one of the bytes the write stores. -/
def Wr.covers (x : Wr) (a : Nat) : Prop := x.addr ≤ a ∧ a < x.addr + x.bytes.length

/-- Issue the writes in order, stopping at the first fault. -/
def exec_writes (w : Nat → Bool) : List Wr → Guest → Bool × Guest
  | [], g => (false, g)
  | x :: xs, g =>
    let r := memcpy_to_target w x.kind g x.addr x.bytes
    if r.1 then (true, r.2) else exec_writes w xs r.2

/-- Memory after all the writes are stored in order. -/
def apply_writes : List Wr → (Nat → Nat) → Nat → Nat
  | [], mem => mem
  | x :: xs, mem => apply_writes xs (store_bytes mem x.addr x.bytes)

/-- The value of `TARGET_SZSIGCODE`, zero when it is not defined. -/
def sig_size (cfg : Config) : Nat :=
  match cfg.sigcode with
  | none => 0
  | some code => code.length

/-- The bytes reserved for the executable path: `roundup(execpath_len, W)`,
zero without a path. -/
def path_size (cfg : Config) (bprm : BsdBinprm) : Nat :=
  match bprm.fullpath with
  | none => 0
  | some path => roundup (strlen path + 1) cfg.W

/-- The cursor after line 44: the address of the trampoline. -/
def sig_p (cfg : Config) (m : Machine) : Nat :=
  match cfg.sigcode with
  | none => sub_ul cfg (stack_hi_addr cfg m) (sizeof_ps_strings cfg)
  | some code => sub_ul cfg (sub_ul cfg (stack_hi_addr cfg m) (sizeof_ps_strings cfg)) code.length

/-- The cursor after line 53: the address of the executable path. -/
def path_p (cfg : Config) (m : Machine) (bprm : BsdBinprm) : Nat :=
  match bprm.fullpath with
  | none => sig_p cfg m
  | some path => sub_ul cfg (sig_p cfg m) (roundup (strlen path + 1) cfg.W)

/-- The cursor after line 61: the address of the canary. -/
def canary_p (cfg : Config) (m : Machine) (bprm : BsdBinprm) : Nat :=
  sub_ul cfg (path_p cfg m bprm) (roundup (cfg.W * 8) cfg.W)

/-- The cursor after line 68: the address of the page-size word. -/
def pagesz_p (cfg : Config) (m : Machine) (bprm : BsdBinprm) : Nat :=
  sub_ul cfg (canary_p cfg m bprm) cfg.W

/-- The address of the summary record (line 144). -/
def ps_addr (cfg : Config) (m : Machine) : Nat :=
  sub_ul cfg (stack_hi_addr cfg m) (sizeof_ps_strings cfg)

/-- The writes of lines 37-73. -/
def fixed_writes (cfg : Config) (m : Machine) (bprm : BsdBinprm) : List Wr :=
  (match cfg.sigcode with
    | none => []
    | some code => [⟨Kind.sigcode, sig_p cfg m, code⟩])
  ++ (match bprm.fullpath with
    | none => []
    | some path => [⟨Kind.execpath, path_p cfg m bprm, cbytes path⟩])
  ++ [⟨Kind.canary, canary_p cfg m bprm, canary_bytes cfg m⟩,
      ⟨Kind.pagesizes, pagesz_p cfg m bprm, scalar_bytes cfg cfg.W cfg.pageSize⟩]

/-- The writes of one of the two string loops. -/
def loop_writes (cfg : Config) : List CStr → Nat → Nat → List Wr
  | [], _, _ => []
  | s :: rest, destp, vecp =>
    ⟨Kind.string, destp, cbytes s⟩ :: ⟨Kind.vector, vecp, scalar_bytes cfg cfg.W destp⟩
      :: loop_writes cfg rest (add_ul cfg destp (strlen s + 1)) (add_ul cfg vecp cfg.W)

/-- The value of `destp` when a string loop ends. -/
def dest_end (cfg : Config) : List CStr → Nat → Nat
  | [], destp => destp
  | s :: rest, destp => dest_end cfg rest (add_ul cfg destp (strlen s + 1))

/-- The value of the table cursor when a string loop ends. -/
def vec_end (cfg : Config) : List CStr → Nat → Nat
  | [], vecp => vecp
  | _ :: rest, vecp => vec_end cfg rest (add_ul cfg vecp cfg.W)

/-- The sum of `strlen + 1` over a list of strings. -/
def space : List CStr → Nat
  | [] => 0
  | s :: rest => (strlen s + 1) + space rest

/-- The initial value of `envp` (line 99). -/
def env_base (cfg : Config) (m : Machine) (bprm : BsdBinprm) : Nat :=
  add_ul cfg (argv_base cfg (pagesz_p cfg m bprm)) ((bprm.argc + 1) * cfg.W)

/-- The record `ps_strs` when line 144 is reached. -/
def ps_record (cfg : Config) (m : Machine) (bprm : BsdBinprm) : PsStrings :=
  ⟨argv_base cfg (pagesz_p cfg m bprm), bprm.argc % 4294967296,
    env_base cfg m bprm, bprm.envc % 4294967296⟩

/-- The writes of lines 102-148. -/
def string_writes (cfg : Config) (m : Machine) (bprm : BsdBinprm) : List Wr :=
  loop_writes cfg bprm.argv (dest_base cfg (pagesz_p cfg m bprm))
      (argv_base cfg (pagesz_p cfg m bprm))
  ++ [⟨Kind.nullptr, vec_end cfg bprm.argv (argv_base cfg (pagesz_p cfg m bprm)),
        scalar_bytes cfg cfg.W 0⟩]
  ++ loop_writes cfg bprm.envp (dest_end cfg bprm.argv (dest_base cfg (pagesz_p cfg m bprm)))
      (env_base cfg m bprm)
  ++ [⟨Kind.nullptr, vec_end cfg bprm.envp (env_base cfg m bprm), scalar_bytes cfg cfg.W 0⟩]
  ++ [⟨Kind.psstrings, ps_addr cfg m, ps_bytes cfg m.junk (ps_record cfg m bprm)⟩]

/-- All the writes a call issues when none faults. -/
def all_writes (cfg : Config) (m : Machine) (bprm : BsdBinprm) : List Wr :=
  fixed_writes cfg m bprm ++
    (if stringspace bprm > cfg.argMax then [] else string_writes cfg m bprm)

/-- The bytes between the page-size word and the top of the region: the
summary record, the trampoline, the path, the canary and the page-size word. -/
def fixed_size (cfg : Config) (bprm : BsdBinprm) : Nat :=
  sizeof_ps_strings cfg + sig_size cfg + path_size cfg bprm + roundup (cfg.W * 8) cfg.W + cfg.W

/-- The address arithmetic of a call does not wrap: the top of the region is an
address, and the fixed upper area, the span `TARGET_SPACE_USRSPACE` and the
string space `TARGET_ARG_MAX` fit between address 0 and the top. -/
def NoWrap (cfg : Config) (m : Machine) (bprm : BsdBinprm) : Prop :=
  m.target_stkbas + m.target_stksiz < cfg.modulus ∧
  fixed_size cfg bprm + cfg.usrSpace + cfg.argMax ≤ m.target_stkbas + m.target_stksiz

/-- The first address above the two pointer tables when nothing wraps: they
hold `argc + envc + 2` words from `argvp` on. -/
def tables_end (cfg : Config) (m : Machine) (bprm : BsdBinprm) : Nat :=
  argv_base cfg (pagesz_p cfg m bprm) + (bprm.argc + bprm.envc + 2) * cfg.W

/-- The region `[target_stkbas, target_stkbas + target_stksiz)` is a range of
guest addresses large enough for the fixed upper area, the span
`TARGET_SPACE_USRSPACE` and the string space `TARGET_ARG_MAX`. -/
def Adequate (cfg : Config) (m : Machine) (bprm : BsdBinprm) : Prop :=
  m.target_stkbas + m.target_stksiz < cfg.modulus ∧
  fixed_size cfg bprm + cfg.usrSpace + cfg.argMax ≤ m.target_stksiz

/-! ## Concrete machines used in examples -/

/-- FreeBSD/amd64 constants: 64-bit little-endian, no trampoline to install,
`TARGET_ARG_MAX = 262144`, `TARGET_SPACE_USRSPACE = 4096`, 4 KiB pages. -/
def amd64 : Config :=
  { abi64 := true, bigEndian := false, sigcode := none,
    argMax := 262144, usrSpace := 4096, pageSize := 4096 }

/-- An 8 MiB stack ending at `0x7ffffffff000`, every address below the top
of the user address space writable, memory and random bytes constant. -/
def machine1 : Machine :=
  { target_stkbas := 0x7fffff7ff000, target_stksiz := 0x800000,
    writable := fun a => decide (a < 0x800000000000),
    arc4random := fun i => (i * 37 + 11) % 256, junk := fun _ => 0 }

/-- Guest memory before the call: all bytes `0xAA`, nothing accessed yet. -/
def guest0 : Guest := ⟨fun _ => 170, []⟩

/-- The request of the spec's example. -/
def request1 : BsdBinprm :=
  { fullpath := some [47, 98, 105, 110, 47, 112, 114, 111, 103],
    argv := [[112, 114, 111, 103], [45, 120]],
    envp := [[72, 79, 77, 69, 61, 47, 114, 111, 111, 116]] }

/-- A request whose single argument is `n` bytes long. -/
def request_long (n : Nat) : BsdBinprm :=
  { fullpath := none, argv := [List.replicate n 65], envp := [] }

/-- A 4 KiB region ending at `0x7ffffffff000`, every address below the top of
the user address space writable. -/
def machine_small : Machine :=
  { target_stkbas := 0x7fffffffe000, target_stksiz := 0x1000,
    writable := fun a => decide (a < 0x800000000000),
    arc4random := fun i => (i * 37 + 11) % 256, junk := fun _ => 0 }

/-- A request with `n` empty arguments, no environment and no path. -/
def request_many (n : Nat) : BsdBinprm :=
  { fullpath := none, argv := List.replicate n [], envp := [] }

/-- The stack of `machine1` with a size that is not a multiple of the word
size: the region ends at `0x7ffffffff004`. -/
def machine_odd : Machine :=
  { target_stkbas := 0x7fffff7ff000, target_stksiz := 0x800004,
    writable := fun a => decide (a < 0x800000000000),
    arc4random := fun i => (i * 37 + 11) % 256, junk := fun _ => 0 }

/-- A region of `size` bytes at the bottom of the address space, every address
writable. -/
def machine_bottom (size : Nat) : Machine :=
  { target_stkbas := 0, target_stksiz := size,
    writable := fun _ => true,
    arc4random := fun i => (i * 37 + 11) % 256, junk := fun _ => 0 }

/-- The stack of `machine_odd`, ending at `0x7ffffffff004`, with only the bytes
of the region `[target_stkbas, target_stkbas + target_stksiz)` writable. -/
def machine_odd_strict : Machine :=
  { target_stkbas := 0x7fffff7ff000, target_stksiz := 0x800004,
    writable := fun a => decide (0x7fffff7ff000 ≤ a ∧ a < 0x7ffffffff004),
    arc4random := fun i => (i * 37 + 11) % 256, junk := fun _ => 0 }

/-! ## Basic facts -/

/-! ### The call issues its writes in order -/

theorem exec_writes_append (w : Nat → Bool) (xs ys : List Wr) (g : Guest) :
    exec_writes w (xs ++ ys) g =
      if (exec_writes w xs g).1 then exec_writes w xs g
      else exec_writes w ys (exec_writes w xs g).2 := by
  induction xs generalizing g with
  | nil => simp [exec_writes]
  | cons x xs ih =>
    simp only [List.cons_append, exec_writes]
    by_cases h : (memcpy_to_target w x.kind g x.addr x.bytes).1 = true
    · simp [h]
    · simp [h, ih]

theorem fixed_area_eq (cfg : Config) (m : Machine) (bprm : BsdBinprm) (g : Guest) :
    (fixed_area cfg m bprm g).1 = (exec_writes m.writable (fixed_writes cfg m bprm) g).1 ∧
    (fixed_area cfg m bprm g).2.1 = (exec_writes m.writable (fixed_writes cfg m bprm) g).2 ∧
    ((fixed_area cfg m bprm g).1 = false → (fixed_area cfg m bprm g).2.2 = pagesz_p cfg m bprm) := by
  rcases cfg with ⟨a64, be, sc, am, us, pg⟩
  rcases bprm with ⟨fp, av, ev⟩
  cases sc <;> cases fp <;>
    simp only [fixed_area, fixed_writes, exec_writes, pagesz_p, canary_p, path_p, sig_p,
      setup_sigtramp, put_user_ual, List.nil_append, List.cons_append, List.singleton_append] <;>
    split_ifs <;> simp_all

theorem copyout_strings_eq (cfg : Config) (w : Nat → Bool) (strs : List CStr) (g : Guest)
    (d v : Nat) :
    (copyout_strings cfg w strs g d v).1 = (exec_writes w (loop_writes cfg strs d v) g).1 ∧
    (copyout_strings cfg w strs g d v).2.1 = (exec_writes w (loop_writes cfg strs d v) g).2 ∧
    ((copyout_strings cfg w strs g d v).1 = false →
      (copyout_strings cfg w strs g d v).2.2.1 = dest_end cfg strs d ∧
      (copyout_strings cfg w strs g d v).2.2.2 = vec_end cfg strs v) := by
  induction strs generalizing g d v with
  | nil => simp [copyout_strings, loop_writes, exec_writes, dest_end, vec_end]
  | cons s rest ih =>
    simp only [copyout_strings, loop_writes, exec_writes, dest_end, vec_end, put_user_ual]
    split_ifs <;> simp_all

theorem exec_writes_single (w : Nat → Bool) (x : Wr) (g : Guest) :
    exec_writes w [x] g = memcpy_to_target w x.kind g x.addr x.bytes := by
  simp only [exec_writes]
  split_ifs with h
  · ext <;> simp [h]
  · ext <;> simp_all

theorem setup_eq (cfg : Config) (m : Machine) (bprm : BsdBinprm) (ra : Bool) (g : Guest) :
    setup_initial_stack cfg m bprm ra g =
      if (exec_writes m.writable (all_writes cfg m bprm) g).1 then
        fail_efault (exec_writes m.writable (all_writes cfg m bprm) g).2
      else if stringspace bprm > cfg.argMax then
        fail_enomem (exec_writes m.writable (all_writes cfg m bprm) g).2
      else
        ⟨0, none, if ra then some (dest_base cfg (pagesz_p cfg m bprm)) else none,
          (exec_writes m.writable (all_writes cfg m bprm) g).2⟩ := by
  obtain ⟨hf1, hf2, hf3⟩ := fixed_area_eq cfg m bprm g
  simp only [setup_initial_stack, all_writes, hf1, hf2]
  by_cases h1 : (exec_writes m.writable (fixed_writes cfg m bprm) g).1 = true
  · simp [exec_writes_append, h1]
  have hp := hf3 (by rw [hf1]; simpa using h1)
  by_cases h2 : stringspace bprm > cfg.argMax
  · simp [exec_writes_append, h1, h2]
  rw [hp]
  simp only [h1, h2, if_false, Bool.false_eq_true, string_writes, exec_writes_append,
    exec_writes_single, put_user_ual]
  generalize (exec_writes m.writable (fixed_writes cfg m bprm) g).2 = g1
  obtain ⟨ha1, ha2, ha3⟩ := copyout_strings_eq cfg m.writable bprm.argv g1
    (dest_base cfg (pagesz_p cfg m bprm)) (argv_base cfg (pagesz_p cfg m bprm))
  simp only [ha1, ha2]
  by_cases h3 : (exec_writes m.writable (loop_writes cfg bprm.argv
      (dest_base cfg (pagesz_p cfg m bprm)) (argv_base cfg (pagesz_p cfg m bprm))) g1).1 = true
  · simp [h3]
  obtain ⟨hd, hv⟩ := ha3 (by rw [ha1]; simpa using h3)
  simp only [h3, hd, hv, if_false, Bool.false_eq_true]
  generalize (exec_writes m.writable (loop_writes cfg bprm.argv
      (dest_base cfg (pagesz_p cfg m bprm)) (argv_base cfg (pagesz_p cfg m bprm))) g1).2 = g2
  by_cases h4 : (memcpy_to_target m.writable Kind.nullptr g2
      (vec_end cfg bprm.argv (argv_base cfg (pagesz_p cfg m bprm)))
      (scalar_bytes cfg cfg.W 0)).1 = true
  · simp [h4]
  simp only [h4, if_false, Bool.false_eq_true]
  generalize (memcpy_to_target m.writable Kind.nullptr g2
      (vec_end cfg bprm.argv (argv_base cfg (pagesz_p cfg m bprm)))
      (scalar_bytes cfg cfg.W 0)).2 = g3
  obtain ⟨hb1, hb2, hb3⟩ := copyout_strings_eq cfg m.writable bprm.envp g3
    (dest_end cfg bprm.argv (dest_base cfg (pagesz_p cfg m bprm)))
    (add_ul cfg (argv_base cfg (pagesz_p cfg m bprm)) ((bprm.argc + 1) * cfg.W))
  simp only [hb1, hb2, env_base]
  by_cases h5 : (exec_writes m.writable (loop_writes cfg bprm.envp
      (dest_end cfg bprm.argv (dest_base cfg (pagesz_p cfg m bprm)))
      (add_ul cfg (argv_base cfg (pagesz_p cfg m bprm)) ((bprm.argc + 1) * cfg.W))) g3).1 = true
  · simp [h5]
  obtain ⟨hd2, hv2⟩ := hb3 (by rw [hb1]; simpa using h5)
  simp only [h5, hd2, hv2, if_false, Bool.false_eq_true]
  generalize (exec_writes m.writable (loop_writes cfg bprm.envp
      (dest_end cfg bprm.argv (dest_base cfg (pagesz_p cfg m bprm)))
      (add_ul cfg (argv_base cfg (pagesz_p cfg m bprm)) ((bprm.argc + 1) * cfg.W))) g3).2 = g4
  by_cases h6 : (memcpy_to_target m.writable Kind.nullptr g4
      (vec_end cfg bprm.envp (add_ul cfg (argv_base cfg (pagesz_p cfg m bprm))
        ((bprm.argc + 1) * cfg.W))) (scalar_bytes cfg cfg.W 0)).1 = true
  · simp [h6]
  simp only [h6, if_false, Bool.false_eq_true]
  by_cases h7 : (memcpy_to_target m.writable Kind.psstrings
      (memcpy_to_target m.writable Kind.nullptr g4
        (vec_end cfg bprm.envp (add_ul cfg (argv_base cfg (pagesz_p cfg m bprm))
        ((bprm.argc + 1) * cfg.W))) (scalar_bytes cfg cfg.W 0)).2
      (ps_addr cfg m) (ps_bytes cfg m.junk (ps_record cfg m bprm))).1 = true
  · simp [h7, ps_addr, ps_record, env_base] at *
  · simp [h7, ps_addr, ps_record, env_base] at *

theorem exec_writes_ok (w : Nat → Bool) (ws : List Wr) (g : Guest)
    (h : (exec_writes w ws g).1 = false) :
    (exec_writes w ws g).2.mem = apply_writes ws g.mem ∧
    (exec_writes w ws g).2.trace = (ws.map (fun x => x.access true)).reverse ++ g.trace ∧
    ∀ x ∈ ws, writable_range w x.addr x.bytes.length = true := by
  induction ws generalizing g with
  | nil => simp [exec_writes, apply_writes]
  | cons x xs ih =>
    simp only [exec_writes, memcpy_to_target] at h ⊢
    by_cases hw : writable_range w x.addr x.bytes.length = true
    · simp only [hw, if_true, Bool.false_eq_true, if_false] at h ⊢
      obtain ⟨h1, h2, h3⟩ := ih _ h
      refine ⟨by rw [h1]; rfl, ?_, ?_⟩
      · rw [h2]; simp [Wr.access]
      · intro y hy
        rcases List.mem_cons.1 hy with rfl | hy
        · exact hw
        · exact h3 y hy
    · simp [hw] at h

theorem exec_writes_fault (w : Nat → Bool) (ws : List Wr) (g : Guest)
    (h : (exec_writes w ws g).1 = true) :
    ∃ pre x post, ws = pre ++ x :: post ∧
      (∀ y ∈ pre, writable_range w y.addr y.bytes.length = true) ∧
      writable_range w x.addr x.bytes.length = false ∧
      (exec_writes w ws g).2.mem = apply_writes pre g.mem ∧
      (exec_writes w ws g).2.trace =
        x.access false :: ((pre.map (fun x => x.access true)).reverse ++ g.trace) := by
  induction ws generalizing g with
  | nil => simp [exec_writes] at h
  | cons x xs ih =>
    simp only [exec_writes, memcpy_to_target] at h ⊢
    by_cases hw : writable_range w x.addr x.bytes.length = true
    · simp only [hw, if_true, Bool.false_eq_true, if_false] at h ⊢
      obtain ⟨pre, y, post, e, h1, h2, h3, h4⟩ := ih _ h
      refine ⟨x :: pre, y, post, by rw [e]; rfl, ?_, h2, by rw [h3]; rfl, ?_⟩
      · intro z hz
        rcases List.mem_cons.1 hz with rfl | hz
        · exact hw
        · exact h1 z hz
      · rw [h4]; simp [Wr.access]
    · refine ⟨[], x, xs, rfl, by simp, by simpa using hw, ?_, ?_⟩
      · simp [hw, apply_writes]
      · simp [hw, Wr.access]

theorem exec_writes_of_writable (w : Nat → Bool) (ws : List Wr) (g : Guest)
    (h : ∀ x ∈ ws, writable_range w x.addr x.bytes.length = true) :
    (exec_writes w ws g).1 = false := by
  induction ws generalizing g with
  | nil => simp [exec_writes]
  | cons x xs ih =>
    simp only [exec_writes, memcpy_to_target]
    have hx := h x (List.mem_cons_self _ _)
    simp only [hx, if_true, Bool.false_eq_true, if_false]
    exact ih _ (fun y hy => h y (List.mem_cons_of_mem _ hy))

/-! ### Bytes, scalars and memory reads -/

theorem le_bytes_length (n v : Nat) : (le_bytes n v).length = n := by
  induction n generalizing v with
  | zero => rfl
  | succ n ih => simp [le_bytes, ih]

theorem le_value_le_bytes (n v : Nat) : le_value (le_bytes n v) = v % 256 ^ n := by
  induction n generalizing v with
  | zero => simp [le_bytes, le_value, Nat.mod_one]
  | succ n ih =>
    simp only [le_bytes, le_value, ih]
    rw [show 256 ^ (n + 1) = 256 * 256 ^ n from by rw [pow_succ, mul_comm], Nat.mod_mul]

theorem scalar_bytes_length (cfg : Config) (n v : Nat) : (scalar_bytes cfg n v).length = n := by
  unfold scalar_bytes
  split_ifs <;> simp [le_bytes_length]

theorem scalar_value_bytes (cfg : Config) (n v : Nat) :
    scalar_value cfg (scalar_bytes cfg n v) = v % 256 ^ n := by
  unfold scalar_value scalar_bytes
  split_ifs <;> simp [le_value_le_bytes]

theorem read_bytes_store_mid (mem : Nat → Nat) (d : Nat) (pre mid post : List Nat) :
    read_bytes (store_bytes mem d (pre ++ mid ++ post)) (d + pre.length) mid.length = mid := by
  apply List.ext_getElem
  · simp [read_bytes]
  · intro i h1 h2
    simp only [read_bytes, List.getElem_map, List.getElem_range, store_bytes]
    have h3 : d ≤ d + pre.length + i ∧ d + pre.length + i < d + (pre ++ mid ++ post).length := by
      simp only [List.length_append]; omega
    rw [if_pos h3]
    have h4 : d + pre.length + i - d = pre.length + i := by omega
    rw [h4, List.getD_eq_getElem?_getD, List.append_assoc, List.getElem?_append_right (by omega)]
    simp [List.getElem?_append_left h2, List.getElem?_eq_getElem h2]

theorem read_bytes_congr (mem mem2 : Nat → Nat) (a n : Nat)
    (h : ∀ i, i < n → mem (a + i) = mem2 (a + i)) : read_bytes mem a n = read_bytes mem2 a n := by
  apply List.ext_getElem
  · simp [read_bytes]
  · intro i h1 _
    simp only [read_bytes, List.length_map, List.length_range] at h1
    simp [read_bytes, h i h1]

theorem apply_writes_append (xs ys : List Wr) (mem : Nat → Nat) :
    apply_writes (xs ++ ys) mem = apply_writes ys (apply_writes xs mem) := by
  induction xs generalizing mem with
  | nil => rfl
  | cons x xs ih => simp [apply_writes, ih]

theorem apply_writes_not_covered (ws : List Wr) (mem : Nat → Nat) (a : Nat)
    (h : ∀ x ∈ ws, ¬ x.covers a) : apply_writes ws mem a = mem a := by
  induction ws generalizing mem with
  | nil => rfl
  | cons x xs ih =>
    simp only [apply_writes]
    rw [ih _ (fun y hy => h y (List.mem_cons_of_mem _ hy))]
    have hx := h x (List.mem_cons_self _ _)
    simp only [Wr.covers] at hx
    simp [store_bytes, hx]

/-! ### Error exits -/

theorem stringspace_eq (bprm : BsdBinprm) :
    stringspace bprm = space bprm.argv + space bprm.envp := by
  have key : ∀ (l : List CStr) (acc : Nat),
      l.foldl (fun acc s => acc + (strlen s + 1)) acc = acc + space l := by
    intro l
    induction l with
    | nil => intro acc; rfl
    | cons s rest ih => intro acc; simp only [List.foldl, ih, space]; omega
  simp only [stringspace, key]
  omega

theorem space_eq_sum (l : List CStr) : space l = (l.map (fun s => s.length + 1)).sum := by
  induction l with
  | nil => rfl
  | cons s rest ih => simp [space, strlen, ih]

/-- C6: a failed guest write makes the call return -1 with `EFAULT`, is the last
access the call issues, and leaves `*ret_addr` alone; the call returns 0 (and
stores the stack pointer through a non-null `ret_addr`) only when every access
succeeded and `stringspace` is within `TARGET_ARG_MAX`. -/
theorem memory_fault_propagation (cfg : Config) (m : Machine) (bprm : BsdBinprm) (ra : Bool)
    (mem0 : Nat → Nat) :
    ((∃ a ∈ (setup_initial_stack cfg m bprm ra ⟨mem0, []⟩).guest.trace, a.ok = false) →
      (setup_initial_stack cfg m bprm ra ⟨mem0, []⟩).rc = -1 ∧
      (setup_initial_stack cfg m bprm ra ⟨mem0, []⟩).errno = some Errno.EFAULT ∧
      (setup_initial_stack cfg m bprm ra ⟨mem0, []⟩).ret = none ∧
      ∃ a rest, (setup_initial_stack cfg m bprm ra ⟨mem0, []⟩).guest.trace = a :: rest ∧
        a.ok = false ∧ ∀ b ∈ rest, b.ok = true) ∧
    ((setup_initial_stack cfg m bprm ra ⟨mem0, []⟩).rc = 0 →
      (∀ a ∈ (setup_initial_stack cfg m bprm ra ⟨mem0, []⟩).guest.trace, a.ok = true) ∧
      stringspace bprm ≤ cfg.argMax ∧
      (setup_initial_stack cfg m bprm ra ⟨mem0, []⟩).ret =
        if ra then some (dest_base cfg (pagesz_p cfg m bprm)) else none) ∧
    ((setup_initial_stack cfg m bprm ra ⟨mem0, []⟩).ret ≠ none →
      (setup_initial_stack cfg m bprm ra ⟨mem0, []⟩).rc = 0) := by
  rw [setup_eq]
  by_cases h1 : (exec_writes m.writable (all_writes cfg m bprm) ⟨mem0, []⟩).1 = true
  · obtain ⟨pre, x, post, _, _, _, _, ht⟩ := exec_writes_fault _ _ _ h1
    simp only [h1, if_true, fail_efault]
    refine ⟨fun _ => ⟨trivial, trivial, trivial, _, _, ht, rfl, ?_⟩, fun h => by simp at h, fun h => by simp at h⟩
    intro b hb
    simp only [List.append_nil, List.mem_reverse, List.mem_map] at hb
    obtain ⟨y, _, rfl⟩ := hb
    rfl
  · have h1f : (exec_writes m.writable (all_writes cfg m bprm) ⟨mem0, []⟩).1 = false := by
      simpa using h1
    obtain ⟨_, ht, _⟩ := exec_writes_ok _ _ _ h1f
    have hall : ∀ a ∈ (exec_writes m.writable (all_writes cfg m bprm) ⟨mem0, []⟩).2.trace,
        a.ok = true := by
      intro a ha
      rw [ht] at ha
      simp only [List.append_nil, List.mem_reverse, List.mem_map] at ha
      obtain ⟨y, _, rfl⟩ := ha
      rfl
    simp only [h1f, Bool.false_eq_true, if_false]
    by_cases h2 : stringspace bprm > cfg.argMax
    · simp only [h2, if_true, fail_enomem]
      refine ⟨fun ⟨a, ha, hf⟩ => ?_, fun h => by simp at h, fun h => by simp at h⟩
      rw [hall a ha] at hf
      simp at hf
    · simp only [h2, if_false]
      refine ⟨fun ⟨a, ha, hf⟩ => ?_, fun _ => ⟨hall, by omega, trivial⟩, fun _ => trivial⟩
      rw [hall a ha] at hf
      simp at hf

/-- C4: when the trampoline, path, canary and page-size writes all succeed, the
call fails with -1 and `ENOMEM` exactly when `stringspace`, the sum of
`strlen + 1` over the argument and environment strings, exceeds
`TARGET_ARG_MAX`; a sum equal to `TARGET_ARG_MAX` is not rejected for capacity
and a sum of `TARGET_ARG_MAX + 1` is. -/
theorem capacity_boundary (cfg : Config) (m : Machine) (bprm : BsdBinprm) (ra : Bool) (g : Guest)
    (hfixed : (fixed_area cfg m bprm g).1 = false) :
    stringspace bprm = ((bprm.argv ++ bprm.envp).map (fun s => s.length + 1)).sum ∧
    (((setup_initial_stack cfg m bprm ra g).rc = -1 ∧
      (setup_initial_stack cfg m bprm ra g).errno = some Errno.ENOMEM) ↔
        stringspace bprm > cfg.argMax) ∧
    (stringspace bprm = cfg.argMax →
      (setup_initial_stack cfg m bprm ra g).errno ≠ some Errno.ENOMEM) ∧
    (stringspace bprm = cfg.argMax + 1 →
      (setup_initial_stack cfg m bprm ra g).rc = -1 ∧
      (setup_initial_stack cfg m bprm ra g).errno = some Errno.ENOMEM) := by
  have hiff : ((setup_initial_stack cfg m bprm ra g).rc = -1 ∧
      (setup_initial_stack cfg m bprm ra g).errno = some Errno.ENOMEM) ↔
        stringspace bprm > cfg.argMax := by
    simp only [setup_initial_stack, hfixed, Bool.false_eq_true, if_false]
    by_cases h2 : stringspace bprm > cfg.argMax
    · simp [h2, fail_enomem]
    · simp only [h2, if_false, iff_false, not_and]
      intro _
      split_ifs <;> simp [fail_efault]
  refine ⟨?_, hiff, ?_, ?_⟩
  · rw [stringspace_eq, space_eq_sum, space_eq_sum, List.map_append, List.sum_append]
  · intro h he
    have hrc : (setup_initial_stack cfg m bprm ra g).rc = -1 := by
      simp only [setup_initial_stack, hfixed, Bool.false_eq_true, if_false] at he ⊢
      have h2 : ¬ stringspace bprm > cfg.argMax := by omega
      simp only [h2, if_false] at he ⊢
      split_ifs at he ⊢ <;> simp_all [fail_efault]
    have := hiff.1 ⟨hrc, he⟩
    omega
  · intro h
    exact hiff.2 (by omega)

theorem capacity_boundary_witness :
    (fixed_area amd64 machine1 request1 guest0).1 = false ∧
    (((setup_initial_stack amd64 machine1 request1 true guest0).rc = -1 ∧
      (setup_initial_stack amd64 machine1 request1 true guest0).errno = some Errno.ENOMEM) ↔
        stringspace request1 > amd64.argMax) :=
  ⟨by decide, (capacity_boundary amd64 machine1 request1 true guest0 (by decide)).2.1⟩

/-! ### Word sizes and the summary record -/

theorem W_cases (cfg : Config) :
    (cfg.W = 8 ∧ cfg.modulus = 18446744073709551616) ∨ (cfg.W = 4 ∧ cfg.modulus = 4294967296) := by
  unfold Config.W Config.modulus
  split_ifs <;> simp

theorem pow_W (cfg : Config) : 256 ^ cfg.W = cfg.modulus := by
  rcases W_cases cfg with ⟨h1, h2⟩ | ⟨h1, h2⟩ <;> rw [h1, h2] <;> norm_num

theorem modulus_pos (cfg : Config) : 0 < cfg.modulus := by
  rcases W_cases cfg with ⟨_, h2⟩ | ⟨_, h2⟩ <;> rw [h2] <;> norm_num

theorem sub_ul_lt (cfg : Config) (p n : Nat) : sub_ul cfg p n < cfg.modulus :=
  Nat.mod_lt _ (modulus_pos cfg)

theorem add_ul_lt (cfg : Config) (p n : Nat) : add_ul cfg p n < cfg.modulus :=
  Nat.mod_lt _ (modulus_pos cfg)

theorem to_ul_lt (cfg : Config) (x : Nat) : to_ul cfg x < cfg.modulus :=
  Nat.mod_lt _ (modulus_pos cfg)

theorem ps_padding_length (cfg : Config) (junk : Nat → Nat) (off : Nat) :
    (ps_padding cfg junk off).length = cfg.W - 4 := by
  simp [ps_padding]

theorem read_ps_strings_store (cfg : Config) (junk : Nat → Nat) (mem : Nat → Nat) (a : Nat)
    (ps : PsStrings) :
    read_ps_strings cfg (store_bytes mem a (ps_bytes cfg junk ps)) a =
      ⟨ps.ps_argvstr % cfg.modulus, ps.ps_nargvstr % 4294967296,
        ps.ps_envstr % cfg.modulus, ps.ps_nenvstr % 4294967296⟩ := by
  have hW : 4 ≤ cfg.W := by rcases W_cases cfg with ⟨h, _⟩ | ⟨h, _⟩ <;> omega
  have f1 := read_bytes_store_mid mem a [] (scalar_bytes cfg cfg.W ps.ps_argvstr)
    (scalar_bytes cfg 4 ps.ps_nargvstr ++ ps_padding cfg junk (off_nargvstr cfg)
      ++ scalar_bytes cfg cfg.W ps.ps_envstr
      ++ scalar_bytes cfg 4 ps.ps_nenvstr ++ ps_padding cfg junk (off_nenvstr cfg))
  have f2 := read_bytes_store_mid mem a (scalar_bytes cfg cfg.W ps.ps_argvstr)
    (scalar_bytes cfg 4 ps.ps_nargvstr) (ps_padding cfg junk (off_nargvstr cfg)
      ++ scalar_bytes cfg cfg.W ps.ps_envstr
      ++ scalar_bytes cfg 4 ps.ps_nenvstr ++ ps_padding cfg junk (off_nenvstr cfg))
  have f3 := read_bytes_store_mid mem a (scalar_bytes cfg cfg.W ps.ps_argvstr
      ++ scalar_bytes cfg 4 ps.ps_nargvstr ++ ps_padding cfg junk (off_nargvstr cfg))
    (scalar_bytes cfg cfg.W ps.ps_envstr)
    (scalar_bytes cfg 4 ps.ps_nenvstr ++ ps_padding cfg junk (off_nenvstr cfg))
  have f4 := read_bytes_store_mid mem a (scalar_bytes cfg cfg.W ps.ps_argvstr
      ++ scalar_bytes cfg 4 ps.ps_nargvstr ++ ps_padding cfg junk (off_nargvstr cfg)
      ++ scalar_bytes cfg cfg.W ps.ps_envstr)
    (scalar_bytes cfg 4 ps.ps_nenvstr) (ps_padding cfg junk (off_nenvstr cfg))
  simp only [List.nil_append, List.length_nil, Nat.add_zero, List.length_append,
    scalar_bytes_length, ps_padding_length, List.append_assoc, off_nargvstr,
    off_nenvstr] at f1 f2 f3 f4
  have e3 : cfg.W + (4 + (cfg.W - 4)) = 2 * cfg.W := by omega
  have e4 : cfg.W + (4 + (cfg.W - 4 + cfg.W)) = 3 * cfg.W := by omega
  rw [e3] at f3
  rw [e4] at f4
  simp only [read_ps_strings, read_ual, read_u32, ps_bytes, off_nargvstr, off_envstr,
    off_nenvstr, List.append_assoc, f1, f2, f3, f4, scalar_value_bytes, pow_W]
  norm_num

theorem setup_rc_zero (cfg : Config) (m : Machine) (bprm : BsdBinprm) (ra : Bool) (g : Guest)
    (h : (setup_initial_stack cfg m bprm ra g).rc = 0) :
    (exec_writes m.writable (all_writes cfg m bprm) g).1 = false ∧
    stringspace bprm ≤ cfg.argMax ∧
    all_writes cfg m bprm = fixed_writes cfg m bprm ++ string_writes cfg m bprm ∧
    (setup_initial_stack cfg m bprm ra g).guest =
      (exec_writes m.writable (all_writes cfg m bprm) g).2 ∧
    (setup_initial_stack cfg m bprm ra g).ret =
      (if ra then some (dest_base cfg (pagesz_p cfg m bprm)) else none) ∧
    (setup_initial_stack cfg m bprm ra g).errno = none := by
  rw [setup_eq] at h ⊢
  by_cases h1 : (exec_writes m.writable (all_writes cfg m bprm) g).1 = true
  · simp [h1, fail_efault] at h
  by_cases h2 : stringspace bprm > cfg.argMax
  · simp [h1, h2, fail_enomem] at h
  · have h1f : (exec_writes m.writable (all_writes cfg m bprm) g).1 = false := by
      simpa using h1
    simp only [h1f, h2, if_false, Bool.false_eq_true]
    exact ⟨trivial, by omega, by simp [all_writes, h2], trivial, trivial, trivial⟩

theorem setup_guest (cfg : Config) (m : Machine) (bprm : BsdBinprm) (ra : Bool) (g : Guest) :
    (setup_initial_stack cfg m bprm ra g).guest =
      (exec_writes m.writable (all_writes cfg m bprm) g).2 := by
  rw [setup_eq]
  split_ifs <;> rfl

/-! ### Cursor arithmetic -/

theorem sub_ul_eq (cfg : Config) (p n : Nat) (h1 : n ≤ p) (h2 : p < cfg.modulus) :
    sub_ul cfg p n = p - n := by
  unfold sub_ul
  rcases W_cases cfg with ⟨_, hm⟩ | ⟨_, hm⟩ <;> rw [hm] at h2 ⊢ <;> omega

theorem add_ul_eq (cfg : Config) (p n : Nat) (h : p + n < cfg.modulus) :
    add_ul cfg p n = p + n := Nat.mod_eq_of_lt h

theorem add_ul_add_ul (cfg : Config) (p a b : Nat) :
    add_ul cfg (add_ul cfg p a) b = add_ul cfg p (a + b) := by
  unfold add_ul
  rw [Nat.mod_add_mod, Nat.add_assoc]

theorem add_ul_zero (cfg : Config) (p : Nat) (h : p < cfg.modulus) : add_ul cfg p 0 = p := by
  unfold add_ul
  simpa using Nat.mod_eq_of_lt h

theorem vec_end_eq (cfg : Config) (strs : List CStr) (v : Nat) (hv : v < cfg.modulus) :
    vec_end cfg strs v = add_ul cfg v (strs.length * cfg.W) := by
  induction strs generalizing v with
  | nil => simp [vec_end, add_ul_zero cfg v hv]
  | cons s rest ih =>
    simp only [vec_end, ih _ (add_ul_lt cfg v cfg.W), add_ul_add_ul, List.length_cons]
    congr 1
    ring

theorem dest_end_eq (cfg : Config) (strs : List CStr) (d : Nat) (hd : d < cfg.modulus) :
    dest_end cfg strs d = add_ul cfg d (space strs) := by
  induction strs generalizing d with
  | nil => simp [dest_end, space, add_ul_zero cfg d hd]
  | cons s rest ih =>
    simp only [dest_end, ih _ (add_ul_lt cfg d _), add_ul_add_ul, space]

theorem dest_end_append (cfg : Config) (pre post : List CStr) (d : Nat) :
    dest_end cfg (pre ++ post) d = dest_end cfg post (dest_end cfg pre d) := by
  induction pre generalizing d with
  | nil => rfl
  | cons s rest ih => simp [dest_end, ih]

theorem loop_writes_append (cfg : Config) (pre post : List CStr) (d v : Nat) :
    loop_writes cfg (pre ++ post) d v =
      loop_writes cfg pre d v ++ loop_writes cfg post (dest_end cfg pre d) (vec_end cfg pre v) := by
  induction pre generalizing d v with
  | nil => rfl
  | cons s rest ih => simp [loop_writes, dest_end, vec_end, ih]

/-- The writes of iteration `i` of a string loop. -/
theorem loop_writes_split (cfg : Config) (strs : List CStr) (d v : Nat) (i : Nat)
    (hi : i < strs.length) :
    loop_writes cfg strs d v =
      loop_writes cfg (strs.take i) d v ++
        (⟨Kind.string, dest_end cfg (strs.take i) d, cbytes (strs.get ⟨i, hi⟩)⟩ ::
         ⟨Kind.vector, vec_end cfg (strs.take i) v,
            scalar_bytes cfg cfg.W (dest_end cfg (strs.take i) d)⟩ ::
         loop_writes cfg (strs.drop (i + 1))
            (add_ul cfg (dest_end cfg (strs.take i) d) (strlen (strs.get ⟨i, hi⟩) + 1))
            (add_ul cfg (vec_end cfg (strs.take i) v) cfg.W)) := by
  have e : strs = strs.take i ++ (strs.get ⟨i, hi⟩ :: strs.drop (i + 1)) := by
    rw [List.get_eq_getElem, List.getElem_cons_drop, List.take_append_drop]
  conv_lhs => rw [e]
  rw [loop_writes_append]
  rfl

theorem roundup_canary (cfg : Config) : roundup (cfg.W * 8) cfg.W = cfg.W * 8 := by
  rcases W_cases cfg with ⟨h, _⟩ | ⟨h, _⟩ <;> rw [h] <;> simp [roundup]

theorem roundup_ge (cfg : Config) (x : Nat) :
    x ≤ roundup x cfg.W ∧ roundup x cfg.W < x + cfg.W ∧ roundup x cfg.W % cfg.W = 0 := by
  unfold roundup
  rcases W_cases cfg with ⟨h, _⟩ | ⟨h, _⟩ <;> rw [h] <;> omega

/-- Evaluating `roundup` in 64-bit `size_t` and converting to `abi_ulong` gives
the same address as the exact value converted to `abi_ulong`. -/
theorem roundup_size_t (cfg : Config) (x : Nat) :
    to_ul cfg (roundup_wrapping x cfg.W) = to_ul cfg (roundup x cfg.W) := by
  unfold to_ul roundup roundup_wrapping sizeMod
  rcases W_cases cfg with ⟨h, hm⟩ | ⟨h, hm⟩ <;> rw [h, hm] <;> omega

theorem roundup_dvd (cfg : Config) (x : Nat) : to_ul cfg (roundup x cfg.W) % cfg.W = 0 := by
  unfold to_ul roundup
  rcases W_cases cfg with ⟨h, hm⟩ | ⟨h, hm⟩ <;> rw [h, hm] <;> omega

theorem roundup_bounds (cfg : Config) (x : Nat) (hx : x + cfg.W ≤ cfg.modulus) :
    x ≤ to_ul cfg (roundup x cfg.W) ∧ to_ul cfg (roundup x cfg.W) < x + cfg.W := by
  unfold to_ul roundup
  rcases W_cases cfg with ⟨h, hm⟩ | ⟨h, hm⟩ <;> simp only [h, hm] at hx ⊢ <;> omega

/-- The cursor values of the fixed upper area when it fits between address 0
and the top of the region. -/
theorem cursors_fit (cfg : Config) (m : Machine) (bprm : BsdBinprm)
    (h2 : fixed_size cfg bprm ≤ stack_hi_addr cfg m) :
    ps_addr cfg m = stack_hi_addr cfg m - sizeof_ps_strings cfg ∧
    sig_p cfg m = ps_addr cfg m - sig_size cfg ∧
    path_p cfg m bprm = sig_p cfg m - path_size cfg bprm ∧
    canary_p cfg m bprm = path_p cfg m bprm - cfg.W * 8 ∧
    pagesz_p cfg m bprm = canary_p cfg m bprm - cfg.W ∧
    pagesz_p cfg m bprm = stack_hi_addr cfg m - fixed_size cfg bprm := by
  simp only [fixed_size, roundup_canary] at h2
  have h1 : stack_hi_addr cfg m < cfg.modulus := to_ul_lt _ _
  have e1 : ps_addr cfg m = stack_hi_addr cfg m - sizeof_ps_strings cfg := by
    rw [ps_addr, sub_ul_eq cfg _ _ (by omega) h1]
  have e2 : sig_p cfg m = ps_addr cfg m - sig_size cfg := by
    unfold sig_p sig_size ps_addr at *
    cases hs : cfg.sigcode with
    | none => simp
    | some code =>
      simp only [hs] at h2 ⊢
      rw [sub_ul_eq cfg _ _ (by rw [e1]; omega) (sub_ul_lt _ _ _)]
  have e3 : path_p cfg m bprm = sig_p cfg m - path_size cfg bprm := by
    unfold path_p path_size at *
    cases hs : bprm.fullpath with
    | none => simp
    | some path =>
      simp only [hs] at h2 ⊢
      rw [sub_ul_eq cfg _ _ (by rw [e2, e1]; omega) (by rw [e2, e1]; omega)]
  have e4 : canary_p cfg m bprm = path_p cfg m bprm - cfg.W * 8 := by
    rw [canary_p, roundup_canary, sub_ul_eq cfg _ _ (by rw [e3, e2, e1]; omega)
      (by rw [e3, e2, e1]; omega)]
  have e5 : pagesz_p cfg m bprm = canary_p cfg m bprm - cfg.W := by
    rw [pagesz_p, sub_ul_eq cfg _ _ (by rw [e4, e3, e2, e1]; omega)
      (by rw [e4, e3, e2, e1]; omega)]
  have e6 : pagesz_p cfg m bprm = stack_hi_addr cfg m - fixed_size cfg bprm := by
    rw [e5, e4, e3, e2, e1, fixed_size, roundup_canary]; omega
  exact ⟨e1, e2, e3, e4, e5, e6⟩

theorem stack_hi_nowrap (cfg : Config) (m : Machine) (bprm : BsdBinprm)
    (h : NoWrap cfg m bprm) :
    stack_hi_addr cfg m = m.target_stkbas + m.target_stksiz ∧
    fixed_size cfg bprm + cfg.usrSpace + cfg.argMax ≤ stack_hi_addr cfg m ∧
    pagesz_p cfg m bprm = m.target_stkbas + m.target_stksiz - fixed_size cfg bprm := by
  have e0 : stack_hi_addr cfg m = m.target_stkbas + m.target_stksiz := Nat.mod_eq_of_lt h.1
  have h2 := h.2
  refine ⟨e0, by omega, ?_⟩
  rw [(cursors_fit cfg m bprm (by omega)).2.2.2.2.2, e0]

/-- The bases of the pointer tables and of the string block when the address
arithmetic does not wrap. -/
theorem bases_nowrap (cfg : Config) (m : Machine) (bprm : BsdBinprm)
    (h : NoWrap cfg m bprm) :
    argv_base cfg (pagesz_p cfg m bprm) = pagesz_p cfg m bprm - cfg.usrSpace ∧
    pagesz_p cfg m bprm - cfg.usrSpace - cfg.argMax ≤ dest_base cfg (pagesz_p cfg m bprm) ∧
    dest_base cfg (pagesz_p cfg m bprm) < pagesz_p cfg m bprm - cfg.usrSpace - cfg.argMax + cfg.W ∧
    dest_base cfg (pagesz_p cfg m bprm) % cfg.W = 0 := by
  obtain ⟨h1, h2⟩ := h
  obtain ⟨_, _, e6⟩ := stack_hi_nowrap cfg m bprm ⟨h1, h2⟩
  have hW : 0 < cfg.W := by rcases W_cases cfg with ⟨h, _⟩ | ⟨h, _⟩ <;> omega
  have hfs : cfg.W ≤ fixed_size cfg bprm := by unfold fixed_size; omega
  have ea : argv_base cfg (pagesz_p cfg m bprm) = pagesz_p cfg m bprm - cfg.usrSpace := by
    rw [argv_base, sub_ul_eq cfg _ _ (by rw [e6]; omega) (by rw [e6]; omega)]
  have eq : sub_ul cfg (sub_ul cfg (pagesz_p cfg m bprm) cfg.usrSpace) cfg.argMax =
      pagesz_p cfg m bprm - cfg.usrSpace - cfg.argMax := by
    rw [sub_ul_eq cfg (pagesz_p cfg m bprm) _ (by rw [e6]; omega) (by rw [e6]; omega),
      sub_ul_eq cfg _ _ (by rw [e6]; omega) (by rw [e6]; omega)]
  have hb := roundup_bounds cfg (pagesz_p cfg m bprm - cfg.usrSpace - cfg.argMax)
    (by rw [e6]; omega)
  refine ⟨ea, ?_, ?_, ?_⟩
  · rw [dest_base, eq]; exact hb.1
  · rw [dest_base, eq]; exact hb.2
  · exact roundup_dvd cfg _

/-! ### The summary record after a successful call -/

theorem argv_base_lt (cfg : Config) (p : Nat) : argv_base cfg p < cfg.modulus :=
  sub_ul_lt _ _ _

theorem dest_base_lt (cfg : Config) (p : Nat) : dest_base cfg p < cfg.modulus :=
  to_ul_lt _ _

theorem trace_of_ok (cfg : Config) (m : Machine) (bprm : BsdBinprm) (ra : Bool)
    (mem0 : Nat → Nat) (h : (setup_initial_stack cfg m bprm ra ⟨mem0, []⟩).rc = 0) :
    (setup_initial_stack cfg m bprm ra ⟨mem0, []⟩).guest.trace =
      ((fixed_writes cfg m bprm ++ string_writes cfg m bprm).map
        (fun x => x.access true)).reverse ∧
    (setup_initial_stack cfg m bprm ra ⟨mem0, []⟩).guest.mem =
      apply_writes (fixed_writes cfg m bprm ++ string_writes cfg m bprm) mem0 := by
  obtain ⟨h1, _, h3, h4, _, _⟩ := setup_rc_zero cfg m bprm ra _ h
  obtain ⟨hm, ht, _⟩ := exec_writes_ok _ _ _ h1
  rw [h4, ht, hm, h3]
  simp

theorem argv_loop_mem (cfg : Config) (m : Machine) (bprm : BsdBinprm) (x : Wr)
    (hx : x ∈ loop_writes cfg bprm.argv (dest_base cfg (pagesz_p cfg m bprm))
      (argv_base cfg (pagesz_p cfg m bprm))) :
    x ∈ fixed_writes cfg m bprm ++ string_writes cfg m bprm := by
  simp only [string_writes, List.mem_append]
  tauto

theorem envp_loop_mem (cfg : Config) (m : Machine) (bprm : BsdBinprm) (x : Wr)
    (hx : x ∈ loop_writes cfg bprm.envp
      (dest_end cfg bprm.argv (dest_base cfg (pagesz_p cfg m bprm))) (env_base cfg m bprm)) :
    x ∈ fixed_writes cfg m bprm ++ string_writes cfg m bprm := by
  simp only [string_writes, List.mem_append]
  tauto

theorem loop_slot_mem (cfg : Config) (strs : List CStr) (d v i : Nat) (hv : v < cfg.modulus)
    (hi : i < strs.length) :
    (⟨Kind.vector, add_ul cfg v (i * cfg.W),
        scalar_bytes cfg cfg.W (dest_end cfg (strs.take i) d)⟩ : Wr) ∈ loop_writes cfg strs d v ∧
    (⟨Kind.string, dest_end cfg (strs.take i) d, cbytes (strs.get ⟨i, hi⟩)⟩ : Wr) ∈
        loop_writes cfg strs d v := by
  rw [loop_writes_split cfg strs d v i hi, vec_end_eq cfg _ v hv, List.length_take,
    Nat.min_eq_left (Nat.le_of_lt hi)]
  simp

theorem access_mem_trace (cfg : Config) (m : Machine) (bprm : BsdBinprm) (ra : Bool)
    (mem0 : Nat → Nat) (h : (setup_initial_stack cfg m bprm ra ⟨mem0, []⟩).rc = 0) (x : Wr)
    (hx : x ∈ fixed_writes cfg m bprm ++ string_writes cfg m bprm) :
    x.access true ∈ (setup_initial_stack cfg m bprm ra ⟨mem0, []⟩).guest.trace := by
  rw [(trace_of_ok cfg m bprm ra mem0 h).1, List.mem_reverse]
  exact List.mem_map_of_mem _ hx

theorem read_summary_record (cfg : Config) (m : Machine) (bprm : BsdBinprm) (ra : Bool)
    (mem0 : Nat → Nat) (h : (setup_initial_stack cfg m bprm ra ⟨mem0, []⟩).rc = 0) :
    read_ps_strings cfg (setup_initial_stack cfg m bprm ra ⟨mem0, []⟩).guest.mem
        (ps_addr cfg m) =
      ⟨argv_base cfg (pagesz_p cfg m bprm), bprm.argc % 4294967296,
        add_ul cfg (argv_base cfg (pagesz_p cfg m bprm)) ((bprm.argc + 1) * cfg.W),
        bprm.envc % 4294967296⟩ := by
  rw [(trace_of_ok cfg m bprm ra mem0 h).2]
  simp only [string_writes, apply_writes_append, apply_writes]
  rw [read_ps_strings_store]
  simp only [ps_record, env_base]
  rw [Nat.mod_eq_of_lt (argv_base_lt _ _), Nat.mod_eq_of_lt (add_ul_lt _ _ _)]
  congr 1 <;> omega

/-- C2: after a call that returns 0, the record stored at
`target_stkbas + target_stksiz - sizeof(struct target_ps_strings)` reads, in
target byte order, `ps_nargvstr = argc`, `ps_nenvstr = envc`, `ps_argvstr` the
address of slot 0 of the argument pointer table (slot `i` is the word the call
stored at `ps_argvstr + i * W`, the terminator the word at slot `argc`) and
`ps_envstr = ps_argvstr + (argc + 1) * W`, the address of slot 0 of the
environment pointer table. `argc` and `envc` are C `int`s. -/
theorem summary_record_contents (cfg : Config) (m : Machine) (bprm : BsdBinprm) (ra : Bool)
    (mem0 : Nat → Nat) (hargc : bprm.argc < 2147483648) (henvc : bprm.envc < 2147483648)
    (h : (setup_initial_stack cfg m bprm ra ⟨mem0, []⟩).rc = 0) :
    read_ps_strings cfg (setup_initial_stack cfg m bprm ra ⟨mem0, []⟩).guest.mem
        (sub_ul cfg (to_ul cfg (m.target_stkbas + m.target_stksiz)) (sizeof_ps_strings cfg)) =
      ⟨argv_base cfg (pagesz_p cfg m bprm), bprm.argc,
        add_ul cfg (argv_base cfg (pagesz_p cfg m bprm)) ((bprm.argc + 1) * cfg.W),
        bprm.envc⟩ ∧
    (∀ i, i < bprm.argc →
      (⟨Kind.vector, add_ul cfg (argv_base cfg (pagesz_p cfg m bprm)) (i * cfg.W), cfg.W, true⟩
        : Access) ∈ (setup_initial_stack cfg m bprm ra ⟨mem0, []⟩).guest.trace) ∧
    ((⟨Kind.nullptr, add_ul cfg (argv_base cfg (pagesz_p cfg m bprm)) (bprm.argc * cfg.W),
        cfg.W, true⟩ : Access) ∈ (setup_initial_stack cfg m bprm ra ⟨mem0, []⟩).guest.trace) ∧
    (∀ j, j < bprm.envc →
      (⟨Kind.vector, add_ul cfg (add_ul cfg (argv_base cfg (pagesz_p cfg m bprm))
          ((bprm.argc + 1) * cfg.W)) (j * cfg.W), cfg.W, true⟩
        : Access) ∈ (setup_initial_stack cfg m bprm ra ⟨mem0, []⟩).guest.trace) := by
  refine ⟨?_, ?_, ?_, ?_⟩
  · have := read_summary_record cfg m bprm ra mem0 h
    simp only [ps_addr, stack_hi_addr] at this
    rw [this]
    congr 1 <;> omega
  · intro i hi
    have hm := (loop_slot_mem cfg bprm.argv (dest_base cfg (pagesz_p cfg m bprm))
      (argv_base cfg (pagesz_p cfg m bprm)) i (argv_base_lt _ _) hi).1
    have := access_mem_trace cfg m bprm ra mem0 h _ (argv_loop_mem cfg m bprm _ hm)
    simpa [Wr.access, scalar_bytes_length] using this
  · have hm : (⟨Kind.nullptr, vec_end cfg bprm.argv (argv_base cfg (pagesz_p cfg m bprm)),
        scalar_bytes cfg cfg.W 0⟩ : Wr) ∈ fixed_writes cfg m bprm ++ string_writes cfg m bprm := by
      simp [string_writes]
    have := access_mem_trace cfg m bprm ra mem0 h _ hm
    rw [vec_end_eq cfg _ _ (argv_base_lt _ _)] at this
    simpa [Wr.access, scalar_bytes_length, BsdBinprm.argc] using this
  · intro j hj
    have hm := (loop_slot_mem cfg bprm.envp
      (dest_end cfg bprm.argv (dest_base cfg (pagesz_p cfg m bprm)))
      (env_base cfg m bprm) j (add_ul_lt _ _ _) hj).1
    have := access_mem_trace cfg m bprm ra mem0 h _ (envp_loop_mem cfg m bprm _ hm)
    simpa [Wr.access, scalar_bytes_length, env_base] using this

theorem summary_record_contents_witness :
    request1.argc < 2147483648 ∧ request1.envc < 2147483648 ∧
    (setup_initial_stack amd64 machine1 request1 true ⟨guest0.mem, []⟩).rc = 0 ∧
    read_ps_strings amd64
        (setup_initial_stack amd64 machine1 request1 true ⟨guest0.mem, []⟩).guest.mem
        (sub_ul amd64 (to_ul amd64 (machine1.target_stkbas + machine1.target_stksiz))
          (sizeof_ps_strings amd64)) =
      ⟨argv_base amd64 (pagesz_p amd64 machine1 request1), request1.argc,
        add_ul amd64 (argv_base amd64 (pagesz_p amd64 machine1 request1))
          ((request1.argc + 1) * amd64.W),
        request1.envc⟩ :=
  ⟨by decide, by decide, by decide,
    (summary_record_contents amd64 machine1 request1 true guest0.mem (by decide) (by decide)
      (by decide)).1⟩

/-! ### The returned stack pointer and the pointer-table base -/

/-- C9: after a call that returns 0 and whose address arithmetic does not
wrap, the value stored through a non-null `ret_addr` is a multiple of
`sizeof(abi_ulong)` and lies strictly below the summary record, at
`target_stkbas + target_stksiz - sizeof(struct target_ps_strings)`, whatever the
alignment of the region top. -/
theorem returned_stack_pointer (cfg : Config) (m : Machine) (bprm : BsdBinprm) (ra : Bool)
    (mem0 : Nat → Nat) (h : (setup_initial_stack cfg m bprm ra ⟨mem0, []⟩).rc = 0)
    (hnw : NoWrap cfg m bprm) :
    (ra = true → ∃ sp, (setup_initial_stack cfg m bprm ra ⟨mem0, []⟩).ret = some sp) ∧
    ∀ sp, (setup_initial_stack cfg m bprm ra ⟨mem0, []⟩).ret = some sp →
      sp % cfg.W = 0 ∧
      sp < m.target_stkbas + m.target_stksiz - sizeof_ps_strings cfg := by
  obtain ⟨_, _, _, _, hret, _⟩ := setup_rc_zero cfg m bprm ra _ h
  obtain ⟨_, _, hlt, hdvd⟩ := bases_nowrap cfg m bprm hnw
  obtain ⟨_, _, e6⟩ := stack_hi_nowrap cfg m bprm hnw
  have hW : 0 < cfg.W := by rcases W_cases cfg with ⟨h, _⟩ | ⟨h, _⟩ <;> omega
  have hfs : sizeof_ps_strings cfg + cfg.W * 8 + cfg.W ≤ fixed_size cfg bprm := by
    unfold fixed_size; rw [roundup_canary]; omega
  have hnw2 := hnw.2
  rw [hret]
  refine ⟨fun hra => ⟨_, by rw [if_pos hra]⟩, ?_⟩
  intro sp hsp
  cases ra with
  | false => simp at hsp
  | true =>
    simp only [if_true, Option.some.injEq] at hsp
    subst hsp
    refine ⟨hdvd, ?_⟩
    omega

theorem returned_stack_pointer_witness :
    (setup_initial_stack amd64 machine1 request1 true ⟨guest0.mem, []⟩).rc = 0 ∧
    NoWrap amd64 machine1 request1 ∧
    ∀ sp, (setup_initial_stack amd64 machine1 request1 true ⟨guest0.mem, []⟩).ret = some sp →
      sp % amd64.W = 0 ∧
      sp < machine1.target_stkbas + machine1.target_stksiz - sizeof_ps_strings amd64 :=
  ⟨by decide, ⟨by decide, by decide⟩,
    (returned_stack_pointer amd64 machine1 request1 true guest0.mem (by decide)
      ⟨by decide, by decide⟩).2⟩

/-- C10 as stated fails: in the spec's example the call returns 0, the summary
record's `ps_argvstr` reads 140737488347016 and the returned stack pointer is
140737488084872, which is `TARGET_ARG_MAX` lower. -/
theorem pointer_table_base_counterexample :
    (setup_initial_stack amd64 machine1 request1 true guest0).rc = 0 ∧
    (setup_initial_stack amd64 machine1 request1 true guest0).ret = some 140737488084872 ∧
    (read_ps_strings amd64 (setup_initial_stack amd64 machine1 request1 true guest0).guest.mem
      (ps_addr amd64 machine1)).ps_argvstr = 140737488347016 ∧
    (setup_initial_stack amd64 machine1 request1 true guest0).ret ≠
      some (read_ps_strings amd64
        (setup_initial_stack amd64 machine1 request1 true guest0).guest.mem
        (ps_addr amd64 machine1)).ps_argvstr := by
  decide

theorem fixed_writes_kind (cfg : Config) (m : Machine) (bprm : BsdBinprm) (x : Wr)
    (hx : x ∈ fixed_writes cfg m bprm) :
    x.kind = Kind.sigcode ∨ x.kind = Kind.execpath ∨ x.kind = Kind.canary ∨
      x.kind = Kind.pagesizes := by
  unfold fixed_writes at hx
  cases hs : cfg.sigcode <;> cases hp : bprm.fullpath <;> simp only [hs, hp] at hx <;>
    simp at hx <;> rcases hx with h | h | h | h <;> simp_all

/-- C10, amended: after a call that returns 0, `ps_argvstr` is the value line 89
computes, the page-size word's address minus `TARGET_SPACE_USRSPACE` (so that
computation is observable), while the returned stack pointer is the value of
line 90 and is the address at which the first string is copied (no string is
copied before it); when the arithmetic does not wrap and `TARGET_ARG_MAX` is
at least a word, the stack pointer is strictly below `ps_argvstr`. -/
theorem pointer_table_base (cfg : Config) (m : Machine) (bprm : BsdBinprm) (ra : Bool)
    (mem0 : Nat → Nat) (h : (setup_initial_stack cfg m bprm ra ⟨mem0, []⟩).rc = 0) :
    (read_ps_strings cfg (setup_initial_stack cfg m bprm ra ⟨mem0, []⟩).guest.mem
        (ps_addr cfg m)).ps_argvstr = sub_ul cfg (pagesz_p cfg m bprm) cfg.usrSpace ∧
    (setup_initial_stack cfg m bprm ra ⟨mem0, []⟩).ret =
      (if ra then some (dest_base cfg (pagesz_p cfg m bprm)) else none) ∧
    (∀ s rest, bprm.argv ++ bprm.envp = s :: rest →
      ∃ later earlier, (setup_initial_stack cfg m bprm ra ⟨mem0, []⟩).guest.trace =
        later ++ ⟨Kind.string, dest_base cfg (pagesz_p cfg m bprm), strlen s + 1, true⟩ ::
          earlier ∧ ∀ b ∈ earlier, b.kind ≠ Kind.string) ∧
    (NoWrap cfg m bprm → cfg.W ≤ cfg.argMax →
      dest_base cfg (pagesz_p cfg m bprm) < sub_ul cfg (pagesz_p cfg m bprm) cfg.usrSpace) := by
  obtain ⟨_, _, _, _, hret, _⟩ := setup_rc_zero cfg m bprm ra _ h
  refine ⟨?_, hret, ?_, ?_⟩
  · rw [read_summary_record cfg m bprm ra mem0 h]
    rfl
  · intro s rest hs
    rw [(trace_of_ok cfg m bprm ra mem0 h).1]
    have key : ∃ pre tail, string_writes cfg m bprm =
        pre ++ ⟨Kind.string, dest_base cfg (pagesz_p cfg m bprm), cbytes s⟩ :: tail ∧
        ∀ x ∈ pre, x.kind = Kind.nullptr := by
      unfold string_writes
      cases ha : bprm.argv with
      | nil =>
        rw [ha] at hs
        simp only [List.nil_append] at hs
        rw [hs]
        exact ⟨[⟨Kind.nullptr, vec_end cfg [] (argv_base cfg (pagesz_p cfg m bprm)),
          scalar_bytes cfg cfg.W 0⟩], _, by simp [loop_writes, dest_end]; rfl, by simp⟩
      | cons s1 r1 =>
        rw [ha] at hs
        simp only [List.cons_append, List.cons.injEq] at hs
        rw [← hs.1]
        exact ⟨[], _, by simp [loop_writes]; rfl, by simp⟩
    obtain ⟨pre, tail, ht, hpre⟩ := key
    refine ⟨(tail.map (fun x => x.access true)).reverse,
      ((fixed_writes cfg m bprm ++ pre).map (fun x => x.access true)).reverse, ?_, ?_⟩
    · rw [ht]
      simp [Wr.access, cbytes, strlen]
    · intro b hb
      simp only [List.mem_reverse, List.mem_map, List.mem_append] at hb
      obtain ⟨x, hx, rfl⟩ := hb
      rcases hx with hx | hx
      · rcases fixed_writes_kind cfg m bprm x hx with h | h | h | h <;> simp [Wr.access, h]
      · simp [Wr.access, hpre x hx]
  · intro hnw hA
    obtain ⟨ea, _, hlt, _⟩ := bases_nowrap cfg m bprm hnw
    obtain ⟨_, _, e6⟩ := stack_hi_nowrap cfg m bprm hnw
    have hnw2 := hnw.2
    rw [argv_base] at ea
    rw [ea]
    omega

theorem pointer_table_base_witness :
    (setup_initial_stack amd64 machine1 request1 true ⟨guest0.mem, []⟩).rc = 0 ∧
    (read_ps_strings amd64
        (setup_initial_stack amd64 machine1 request1 true ⟨guest0.mem, []⟩).guest.mem
        (ps_addr amd64 machine1)).ps_argvstr =
      sub_ul amd64 (pagesz_p amd64 machine1 request1) amd64.usrSpace :=
  ⟨by decide, (pointer_table_base amd64 machine1 request1 true guest0.mem (by decide)).1⟩

/-! ### The fixed upper area and capacity failures -/

theorem canary_bytes_length (cfg : Config) (m : Machine) :
    (canary_bytes cfg m).length = cfg.W * 8 := by
  simp [canary_bytes]

/-- Every write of the fixed upper area lies between the page-size word and
the summary record when that area fits below the top. -/
theorem fixed_writes_range (cfg : Config) (m : Machine) (bprm : BsdBinprm)
    (h2 : fixed_size cfg bprm ≤ stack_hi_addr cfg m) (x : Wr)
    (hx : x ∈ fixed_writes cfg m bprm) :
    pagesz_p cfg m bprm ≤ x.addr ∧ x.addr + x.bytes.length ≤ ps_addr cfg m := by
  obtain ⟨e1, e2, e3, e4, e5, e6⟩ := cursors_fit cfg m bprm h2
  have hW : 0 < cfg.W := by rcases W_cases cfg with ⟨h, _⟩ | ⟨h, _⟩ <;> omega
  simp only [fixed_size, roundup_canary] at h2
  unfold fixed_writes at hx
  unfold sig_size at e2 h2
  unfold path_size at e3 h2
  cases hs : cfg.sigcode <;> cases hp : bprm.fullpath <;>
    simp only [hs, hp, List.nil_append, List.cons_append, List.mem_cons,
      List.mem_singleton, List.not_mem_nil, or_false] at hx e2 e3 h2 <;>
    (try have hr := roundup_ge cfg (strlen ‹CStr› + 1)) <;>
    rcases hx with rfl | rfl | rfl | rfl <;>
    simp only [canary_bytes_length, scalar_bytes_length, cbytes, strlen, List.length_append,
      List.length_singleton] at * <;>
    omega

theorem stringspace_request_long (n : Nat) : stringspace (request_long n) = n + 1 := by
  rw [stringspace_eq]
  simp [request_long, space, strlen]

theorem ps_bytes_length (cfg : Config) (junk : Nat → Nat) (ps : PsStrings) :
    (ps_bytes cfg junk ps).length = sizeof_ps_strings cfg := by
  have hW : 4 ≤ cfg.W := by rcases W_cases cfg with ⟨h, _⟩ | ⟨h, _⟩ <;> omega
  simp only [ps_bytes, List.length_append, scalar_bytes_length, ps_padding_length,
    sizeof_ps_strings]
  omega

theorem space_append (xs ys : List CStr) : space (xs ++ ys) = space xs + space ys := by
  induction xs with
  | nil => simp [space]
  | cons s rest ih => rw [List.cons_append]; simp only [space, ih]; omega

/-- Where the writes of a string loop go when its cursors do not wrap. -/
theorem loop_writes_range (cfg : Config) (strs : List CStr) (d v : Nat)
    (hd : d + space strs < cfg.modulus) (hv : v + strs.length * cfg.W < cfg.modulus)
    (x : Wr) (hx : x ∈ loop_writes cfg strs d v) :
    (x.kind = Kind.string ∧ d ≤ x.addr ∧ x.addr + x.bytes.length ≤ d + space strs) ∨
    (x.kind = Kind.vector ∧ v ≤ x.addr ∧ x.addr + x.bytes.length ≤ v + strs.length * cfg.W) := by
  induction strs generalizing d v with
  | nil => simp [loop_writes] at hx
  | cons s rest ih =>
    simp only [space, List.length_cons, Nat.add_mul, Nat.one_mul] at hd hv ⊢
    simp only [loop_writes, List.mem_cons] at hx
    rcases hx with rfl | rfl | hx
    · left
      simp only [cbytes, strlen, List.length_append, List.length_singleton] at *
      exact ⟨trivial, by omega, by omega⟩
    · right
      simp only [scalar_bytes_length]
      exact ⟨trivial, by omega, by omega⟩
    · rw [add_ul_eq cfg d _ (by omega), add_ul_eq cfg v _ (by omega)] at hx
      rcases ih _ _ (by omega) (by omega) hx with ⟨h1, h2, h3⟩ | ⟨h1, h2, h3⟩
      · left; exact ⟨h1, by omega, by omega⟩
      · right; exact ⟨h1, by omega, by omega⟩

/-- Where the writes of lines 102-148 go when the string block and the
pointer tables do not wrap. -/
theorem string_writes_layout (cfg : Config) (m : Machine) (bprm : BsdBinprm)
    (hd : dest_base cfg (pagesz_p cfg m bprm) + stringspace bprm < cfg.modulus)
    (htab : tables_end cfg m bprm < cfg.modulus)
    (x : Wr) (hx : x ∈ string_writes cfg m bprm) :
    (x.kind = Kind.string ∧ dest_base cfg (pagesz_p cfg m bprm) ≤ x.addr ∧
      x.addr + x.bytes.length ≤ dest_base cfg (pagesz_p cfg m bprm) + stringspace bprm) ∨
    ((x.kind = Kind.vector ∨ x.kind = Kind.nullptr) ∧
      argv_base cfg (pagesz_p cfg m bprm) ≤ x.addr ∧
      x.addr + x.bytes.length ≤ tables_end cfg m bprm) ∨
    (x.kind = Kind.psstrings ∧ x.addr = ps_addr cfg m ∧
      x.bytes.length = sizeof_ps_strings cfg) := by
  rw [stringspace_eq] at hd ⊢
  unfold tables_end at htab ⊢
  have e1 : (bprm.argc + bprm.envc + 2) * cfg.W =
      bprm.argc * cfg.W + cfg.W + (bprm.envc * cfg.W + cfg.W) := by ring
  have e2 : (bprm.argc + 1) * cfg.W = bprm.argc * cfg.W + cfg.W := by ring
  rw [e1] at htab ⊢
  have hde : dest_end cfg bprm.argv (dest_base cfg (pagesz_p cfg m bprm)) =
      dest_base cfg (pagesz_p cfg m bprm) + space bprm.argv := by
    rw [dest_end_eq cfg _ _ (dest_base_lt _ _), add_ul_eq cfg _ _ (by omega)]
  have hve : vec_end cfg bprm.argv (argv_base cfg (pagesz_p cfg m bprm)) =
      argv_base cfg (pagesz_p cfg m bprm) + bprm.argc * cfg.W := by
    rw [vec_end_eq cfg _ _ (argv_base_lt _ _), add_ul_eq cfg _ _ (by unfold BsdBinprm.argc at *; omega)]
    rfl
  have heb : env_base cfg m bprm =
      argv_base cfg (pagesz_p cfg m bprm) + (bprm.argc * cfg.W + cfg.W) := by
    rw [env_base, e2, add_ul_eq cfg _ _ (by omega)]
  have hvee : vec_end cfg bprm.envp (env_base cfg m bprm) =
      env_base cfg m bprm + bprm.envc * cfg.W := by
    rw [vec_end_eq cfg _ _ (show env_base cfg m bprm < cfg.modulus by rw [heb]; omega),
      add_ul_eq cfg _ _ (by rw [heb]; unfold BsdBinprm.envc at *; omega)]
    rfl
  simp only [string_writes, List.mem_append, List.mem_singleton] at hx
  rcases hx with (((hx | rfl) | hx) | rfl) | rfl
  · rcases loop_writes_range cfg bprm.argv _ _ (by omega)
      (by unfold BsdBinprm.argc at *; omega) x hx with ⟨h1, h2, h3⟩ | ⟨h1, h2, h3⟩
    · left; exact ⟨h1, h2, by omega⟩
    · right; left
      unfold BsdBinprm.argc at *
      exact ⟨Or.inl h1, h2, by omega⟩
  · right; left
    simp only [scalar_bytes_length, hve]
    exact ⟨Or.inr trivial, by omega, by omega⟩
  · rw [hde, heb] at hx
    rcases loop_writes_range cfg bprm.envp _ _ (by omega)
      (by unfold BsdBinprm.envc at *; omega) x hx with ⟨h1, h2, h3⟩ | ⟨h1, h2, h3⟩
    · left; exact ⟨h1, by omega, by omega⟩
    · right; left
      unfold BsdBinprm.envc at *
      exact ⟨Or.inl h1, by omega, by omega⟩
  · right; left
    simp only [scalar_bytes_length]
    rw [hvee, heb]
    exact ⟨Or.inr trivial, by omega, by omega⟩
  · right; right
    exact ⟨rfl, rfl, ps_bytes_length _ _ _⟩

/-- Every access of a call is one of the writes of `all_writes`. -/
theorem trace_from_writes (cfg : Config) (m : Machine) (bprm : BsdBinprm) (ra : Bool)
    (mem0 : Nat → Nat) (b : Access)
    (hb : b ∈ (setup_initial_stack cfg m bprm ra ⟨mem0, []⟩).guest.trace) :
    ∃ x ∈ all_writes cfg m bprm, b.kind = x.kind ∧ b.addr = x.addr ∧ b.len = x.bytes.length := by
  rw [setup_guest] at hb
  by_cases h1 : (exec_writes m.writable (all_writes cfg m bprm) ⟨mem0, []⟩).1 = true
  · obtain ⟨pre, y, post, e, _, _, _, ht⟩ := exec_writes_fault _ _ _ h1
    rw [ht] at hb
    simp only [List.append_nil, List.mem_cons, List.mem_reverse, List.mem_map] at hb
    rcases hb with rfl | ⟨x, hx, rfl⟩
    · exact ⟨y, by rw [e]; simp, rfl, rfl, rfl⟩
    · exact ⟨x, by rw [e]; simp [hx], rfl, rfl, rfl⟩
  · obtain ⟨_, ht, _⟩ := exec_writes_ok _ _ _ (by simpa using h1)
    rw [ht] at hb
    simp only [List.append_nil, List.mem_reverse, List.mem_map] at hb
    obtain ⟨x, hx, rfl⟩ := hb
    exact ⟨x, hx, rfl, rfl, rfl⟩

theorem adequate_nowrap (cfg : Config) (m : Machine) (bprm : BsdBinprm)
    (h : Adequate cfg m bprm) : NoWrap cfg m bprm :=
  ⟨h.1, by have := h.2; omega⟩

/-- C7 as stated fails on a region smaller than the layout: with a 4 KiB
region the call returns 0 and the first argument string is written about
260 KiB below `target_stkbas`. -/
theorem writes_inside_region_counterexample :
    (setup_initial_stack amd64 machine_small request1 true guest0).rc = 0 ∧
    (⟨Kind.string, 140737488084872, 5, true⟩ : Access) ∈
      (setup_initial_stack amd64 machine_small request1 true guest0).guest.trace ∧
    ¬ (machine_small.target_stkbas ≤ 140737488084872) := by
  decide

/-- C7, amended: when the region is a range of guest addresses that holds the
fixed upper area, `TARGET_SPACE_USRSPACE` and `TARGET_ARG_MAX`, and the two
pointer tables end at or below the region top, every byte range the call
accesses lies within `[target_stkbas, target_stkbas + target_stksiz)`. -/
theorem writes_inside_region (cfg : Config) (m : Machine) (bprm : BsdBinprm) (ra : Bool)
    (mem0 : Nat → Nat) (had : Adequate cfg m bprm)
    (htab : tables_end cfg m bprm ≤ m.target_stkbas + m.target_stksiz) :
    ∀ b ∈ (setup_initial_stack cfg m bprm ra ⟨mem0, []⟩).guest.trace,
      m.target_stkbas ≤ b.addr ∧ b.addr + b.len ≤ m.target_stkbas + m.target_stksiz := by
  intro b hb
  obtain ⟨x, hx, _, ha, hl⟩ := trace_from_writes cfg m bprm ra mem0 b hb
  rw [ha, hl]
  have hnw := adequate_nowrap cfg m bprm had
  obtain ⟨e0, hfit, e6⟩ := stack_hi_nowrap cfg m bprm hnw
  obtain ⟨ea, hlo, hhi, _⟩ := bases_nowrap cfg m bprm hnw
  obtain ⟨e1, _, _, _, _, _⟩ := cursors_fit cfg m bprm (by omega)
  have hW : 0 < cfg.W := by rcases W_cases cfg with ⟨h, _⟩ | ⟨h, _⟩ <;> omega
  have hfs : sizeof_ps_strings cfg + cfg.W ≤ fixed_size cfg bprm := by
    unfold fixed_size; omega
  have h1 := had.1
  have h2 := had.2
  unfold all_writes at hx
  rcases List.mem_append.1 hx with hx | hx
  · have := fixed_writes_range cfg m bprm (by omega) x hx
    omega
  · by_cases hss : stringspace bprm > cfg.argMax
    · simp [hss] at hx
    · simp only [hss, if_false] at hx
      rcases string_writes_layout cfg m bprm (by omega) (by omega) x hx with
        ⟨_, h3, h4⟩ | ⟨_, h3, h4⟩ | ⟨_, h3, h4⟩
      · omega
      · omega
      · omega

theorem writes_inside_region_witness :
    Adequate amd64 machine1 request1 ∧
    tables_end amd64 machine1 request1 ≤ machine1.target_stkbas + machine1.target_stksiz ∧
    ∀ b ∈ (setup_initial_stack amd64 machine1 request1 true ⟨guest0.mem, []⟩).guest.trace,
      machine1.target_stkbas ≤ b.addr ∧
      b.addr + b.len ≤ machine1.target_stkbas + machine1.target_stksiz :=
  ⟨⟨by decide, by decide⟩, by decide,
    writes_inside_region amd64 machine1 request1 true guest0.mem ⟨by decide, by decide⟩
      (by decide)⟩

/-! ### Reading back the string block and the pointer tables -/

/-- The bytes of a write read back unchanged when no later write overlaps
it. -/
theorem read_back (pre post : List Wr) (x : Wr) (mem : Nat → Nat)
    (h : ∀ y ∈ post, y.addr + y.bytes.length ≤ x.addr ∨ x.addr + x.bytes.length ≤ y.addr) :
    read_bytes (apply_writes (pre ++ x :: post) mem) x.addr x.bytes.length = x.bytes := by
  rw [apply_writes_append]
  simp only [apply_writes]
  rw [read_bytes_congr _ (store_bytes (apply_writes pre mem) x.addr x.bytes)]
  · have := read_bytes_store_mid (apply_writes pre mem) x.addr [] x.bytes []
    simpa using this
  · intro i hi
    apply apply_writes_not_covered
    intro y hy hc
    unfold Wr.covers at hc
    have := h y hy
    omega

theorem space_take_drop (strs : List CStr) (i : Nat) (hi : i < strs.length) :
    space strs = space (strs.take i) + (strlen (strs.get ⟨i, hi⟩) + 1) + space (strs.drop (i + 1)) := by
  have e : strs = strs.take i ++ (strs.get ⟨i, hi⟩ :: strs.drop (i + 1)) := by
    rw [List.get_eq_getElem, List.getElem_cons_drop, List.take_append_drop]
  conv_lhs => rw [e]
  rw [space_append]
  simp only [space]
  omega

/-- Reading back iteration `i` of a string loop: the slot holds the address of
the string and the string's bytes are at that address, provided the loop's
strings stay below `S`, `S` is at most the table base, and every later write
is either a string-block write between the loop's end and `S` or lies at or
above the end of the loop's table. -/
theorem loop_read_back (cfg : Config) (strs : List CStr) (d v S : Nat) (pre post : List Wr)
    (mem : Nat → Nat) (hS : d + space strs ≤ S) (hSv : S ≤ v)
    (hv : v + strs.length * cfg.W < cfg.modulus)
    (hpost : ∀ y ∈ post, (d + space strs ≤ y.addr ∧ y.addr + y.bytes.length ≤ S) ∨
      v + strs.length * cfg.W ≤ y.addr)
    (i : Nat) (hi : i < strs.length) :
    read_bytes (apply_writes (pre ++ loop_writes cfg strs d v ++ post) mem)
        (v + i * cfg.W) cfg.W = scalar_bytes cfg cfg.W (d + space (strs.take i)) ∧
    read_bytes (apply_writes (pre ++ loop_writes cfg strs d v ++ post) mem)
        (d + space (strs.take i)) (strlen (strs.get ⟨i, hi⟩) + 1) =
      cbytes (strs.get ⟨i, hi⟩) := by
  have hW : 0 < cfg.W := by rcases W_cases cfg with ⟨h, _⟩ | ⟨h, _⟩ <;> omega
  have hsp := space_take_drop strs i hi
  have hlen : strs.length = i + 1 + (strs.drop (i + 1)).length := by
    rw [List.length_drop]; omega
  have hmul : strs.length * cfg.W = i * cfg.W + cfg.W + (strs.drop (i + 1)).length * cfg.W := by
    conv_lhs => rw [hlen]
    ring
  have hdlt : d < cfg.modulus := by omega
  have hvlt : v < cfg.modulus := by omega
  have hde : dest_end cfg (strs.take i) d = d + space (strs.take i) := by
    rw [dest_end_eq cfg _ _ hdlt, add_ul_eq cfg _ _ (by omega)]
  have hve : vec_end cfg (strs.take i) v = v + i * cfg.W := by
    rw [vec_end_eq cfg _ _ hvlt, List.length_take, Nat.min_eq_left (Nat.le_of_lt hi),
      add_ul_eq cfg _ _ (by omega)]
  have hd2 : add_ul cfg (d + space (strs.take i)) (strlen (strs.get ⟨i, hi⟩) + 1) =
      d + space (strs.take i) + (strlen (strs.get ⟨i, hi⟩) + 1) :=
    add_ul_eq cfg _ _ (by omega)
  have hv2 : add_ul cfg (v + i * cfg.W) cfg.W = v + i * cfg.W + cfg.W :=
    add_ul_eq cfg _ _ (by omega)
  have hrest : ∀ y ∈ loop_writes cfg (strs.drop (i + 1))
      (d + space (strs.take i) + (strlen (strs.get ⟨i, hi⟩) + 1)) (v + i * cfg.W + cfg.W),
      (d + space (strs.take i) + (strlen (strs.get ⟨i, hi⟩) + 1) ≤ y.addr ∧
        y.addr + y.bytes.length ≤ S) ∨ v + i * cfg.W + cfg.W ≤ y.addr := by
    intro y hy
    rcases loop_writes_range cfg _ _ _ (by omega) (by omega) y hy with
      ⟨_, h2, h3⟩ | ⟨_, h2, _⟩
    · left; exact ⟨h2, by omega⟩
    · right; exact h2
  rw [loop_writes_split cfg strs d v i hi, hde, hve, hd2, hv2]
  constructor
  · have := read_back
      (pre ++ loop_writes cfg (strs.take i) d v ++
        [⟨Kind.string, d + space (strs.take i), cbytes (strs.get ⟨i, hi⟩)⟩])
      (loop_writes cfg (strs.drop (i + 1))
        (d + space (strs.take i) + (strlen (strs.get ⟨i, hi⟩) + 1)) (v + i * cfg.W + cfg.W)
        ++ post)
      ⟨Kind.vector, v + i * cfg.W, scalar_bytes cfg cfg.W (d + space (strs.take i))⟩ mem
      (by
        intro y hy
        simp only [scalar_bytes_length]
        rcases List.mem_append.1 hy with hy | hy
        · rcases hrest y hy with ⟨_, h3⟩ | h3 <;> omega
        · rcases hpost y hy with ⟨_, h3⟩ | h3 <;> omega)
    simp only [scalar_bytes_length, List.append_assoc, List.singleton_append,
      List.cons_append] at this ⊢
    exact this
  · have := read_back
      (pre ++ loop_writes cfg (strs.take i) d v)
      (⟨Kind.vector, v + i * cfg.W, scalar_bytes cfg cfg.W (d + space (strs.take i))⟩ ::
        (loop_writes cfg (strs.drop (i + 1))
          (d + space (strs.take i) + (strlen (strs.get ⟨i, hi⟩) + 1)) (v + i * cfg.W + cfg.W)
        ++ post))
      ⟨Kind.string, d + space (strs.take i), cbytes (strs.get ⟨i, hi⟩)⟩ mem
      (by
        intro y hy
        simp only [cbytes, strlen, List.length_append, List.length_singleton] at *
        rcases List.mem_cons.1 hy with rfl | hy
        · right
          show d + space (strs.take i) + ((strs.get ⟨i, hi⟩).length + 1) ≤ v + i * cfg.W
          omega
        rcases List.mem_append.1 hy with hy | hy
        · rcases hrest y hy with ⟨h3, _⟩ | h3 <;> omega
        · rcases hpost y hy with ⟨h3, _⟩ | h3 <;> omega)
    simp only [cbytes, strlen, List.length_append, List.length_singleton, List.append_assoc,
      List.cons_append] at this ⊢
    exact this

theorem loop_bases (cfg : Config) (m : Machine) (bprm : BsdBinprm)
    (hd : dest_base cfg (pagesz_p cfg m bprm) + stringspace bprm < cfg.modulus)
    (htab : tables_end cfg m bprm < cfg.modulus) :
    dest_end cfg bprm.argv (dest_base cfg (pagesz_p cfg m bprm)) =
      dest_base cfg (pagesz_p cfg m bprm) + space bprm.argv ∧
    vec_end cfg bprm.argv (argv_base cfg (pagesz_p cfg m bprm)) =
      argv_base cfg (pagesz_p cfg m bprm) + bprm.argv.length * cfg.W ∧
    env_base cfg m bprm =
      argv_base cfg (pagesz_p cfg m bprm) + (bprm.argv.length * cfg.W + cfg.W) ∧
    vec_end cfg bprm.envp (env_base cfg m bprm) =
      env_base cfg m bprm + bprm.envp.length * cfg.W ∧
    tables_end cfg m bprm = argv_base cfg (pagesz_p cfg m bprm) +
      (bprm.argv.length * cfg.W + cfg.W + (bprm.envp.length * cfg.W + cfg.W)) := by
  rw [stringspace_eq] at hd
  have e1 : tables_end cfg m bprm = argv_base cfg (pagesz_p cfg m bprm) +
      (bprm.argv.length * cfg.W + cfg.W + (bprm.envp.length * cfg.W + cfg.W)) := by
    unfold tables_end BsdBinprm.argc BsdBinprm.envc
    ring
  have e2 : (bprm.argc + 1) * cfg.W = bprm.argv.length * cfg.W + cfg.W := by
    unfold BsdBinprm.argc
    ring
  rw [e1] at htab
  have heb : env_base cfg m bprm =
      argv_base cfg (pagesz_p cfg m bprm) + (bprm.argv.length * cfg.W + cfg.W) := by
    rw [env_base, e2, add_ul_eq cfg _ _ (by omega)]
  refine ⟨?_, ?_, heb, ?_, e1⟩
  · rw [dest_end_eq cfg _ _ (dest_base_lt _ _), add_ul_eq cfg _ _ (by omega)]
  · rw [vec_end_eq cfg _ _ (argv_base_lt _ _), add_ul_eq cfg _ _ (by omega)]
  · rw [vec_end_eq cfg _ _ (show env_base cfg m bprm < cfg.modulus by rw [heb]; omega),
      add_ul_eq cfg _ _ (by rw [heb]; omega)]

theorem ps_addr_lt (cfg : Config) (m : Machine) : ps_addr cfg m < cfg.modulus :=
  sub_ul_lt _ _ _

theorem read_ual_of_bytes (cfg : Config) (mem : Nat → Nat) (a v : Nat) (hv : v < cfg.modulus)
    (h : read_bytes mem a cfg.W = scalar_bytes cfg cfg.W v) : read_ual cfg mem a = v := by
  rw [read_ual, h, scalar_value_bytes, pow_W, Nat.mod_eq_of_lt hv]

/-- The pointer tables and the string block read back as written when the
string block ends at or below the argument pointer table and the pointer
tables end at or below the summary record. -/
theorem layout_read_back (cfg : Config) (m : Machine) (bprm : BsdBinprm) (ra : Bool)
    (mem0 : Nat → Nat) (h : (setup_initial_stack cfg m bprm ra ⟨mem0, []⟩).rc = 0)
    (hS : dest_base cfg (pagesz_p cfg m bprm) + stringspace bprm ≤
      argv_base cfg (pagesz_p cfg m bprm))
    (hT : tables_end cfg m bprm ≤ ps_addr cfg m) :
    (∀ i (hi : i < bprm.argv.length),
      read_ual cfg (setup_initial_stack cfg m bprm ra ⟨mem0, []⟩).guest.mem
          (argv_base cfg (pagesz_p cfg m bprm) + i * cfg.W) =
        dest_base cfg (pagesz_p cfg m bprm) + space (bprm.argv.take i) ∧
      read_bytes (setup_initial_stack cfg m bprm ra ⟨mem0, []⟩).guest.mem
          (dest_base cfg (pagesz_p cfg m bprm) + space (bprm.argv.take i))
          (strlen (bprm.argv.get ⟨i, hi⟩) + 1) = cbytes (bprm.argv.get ⟨i, hi⟩)) ∧
    read_ual cfg (setup_initial_stack cfg m bprm ra ⟨mem0, []⟩).guest.mem
        (argv_base cfg (pagesz_p cfg m bprm) + bprm.argv.length * cfg.W) = 0 ∧
    (∀ j (hj : j < bprm.envp.length),
      read_ual cfg (setup_initial_stack cfg m bprm ra ⟨mem0, []⟩).guest.mem
          (env_base cfg m bprm + j * cfg.W) =
        dest_base cfg (pagesz_p cfg m bprm) + space bprm.argv + space (bprm.envp.take j) ∧
      read_bytes (setup_initial_stack cfg m bprm ra ⟨mem0, []⟩).guest.mem
          (dest_base cfg (pagesz_p cfg m bprm) + space bprm.argv + space (bprm.envp.take j))
          (strlen (bprm.envp.get ⟨j, hj⟩) + 1) = cbytes (bprm.envp.get ⟨j, hj⟩)) ∧
    read_ual cfg (setup_initial_stack cfg m bprm ra ⟨mem0, []⟩).guest.mem
        (env_base cfg m bprm + bprm.envp.length * cfg.W) = 0 := by
  have hW : 0 < cfg.W := by rcases W_cases cfg with ⟨h, _⟩ | ⟨h, _⟩ <;> omega
  have hal := argv_base_lt cfg (pagesz_p cfg m bprm)
  have hpl := ps_addr_lt cfg m
  obtain ⟨hde, hve, heb, hvee, hte⟩ := loop_bases cfg m bprm (by omega) (by omega)
  have hss := stringspace_eq bprm
  rw [hte] at hT
  rw [(trace_of_ok cfg m bprm ra mem0 h).2]
  obtain ⟨nA, hnA⟩ : ∃ x : Wr, x = ⟨Kind.nullptr,
      argv_base cfg (pagesz_p cfg m bprm) + bprm.argv.length * cfg.W,
      scalar_bytes cfg cfg.W 0⟩ := ⟨_, rfl⟩
  obtain ⟨nE, hnE⟩ : ∃ x : Wr, x = ⟨Kind.nullptr,
      env_base cfg m bprm + bprm.envp.length * cfg.W, scalar_bytes cfg cfg.W 0⟩ := ⟨_, rfl⟩
  obtain ⟨psw, hpsw⟩ : ∃ x : Wr, x = ⟨Kind.psstrings, ps_addr cfg m,
      ps_bytes cfg m.junk (ps_record cfg m bprm)⟩ := ⟨_, rfl⟩
  have hnAa : nA.addr = argv_base cfg (pagesz_p cfg m bprm) + bprm.argv.length * cfg.W := by
    rw [hnA]
  have hnAb : nA.bytes = scalar_bytes cfg cfg.W 0 := by rw [hnA]
  have hnAl : nA.bytes.length = cfg.W := by rw [hnAb, scalar_bytes_length]
  have hnEa : nE.addr = env_base cfg m bprm + bprm.envp.length * cfg.W := by rw [hnE]
  have hnEb : nE.bytes = scalar_bytes cfg cfg.W 0 := by rw [hnE]
  have hnEl : nE.bytes.length = cfg.W := by rw [hnEb, scalar_bytes_length]
  have hpsa : psw.addr = ps_addr cfg m := by rw [hpsw]
  have hspl : fixed_writes cfg m bprm ++ string_writes cfg m bprm =
      fixed_writes cfg m bprm ++
        loop_writes cfg bprm.argv (dest_base cfg (pagesz_p cfg m bprm))
          (argv_base cfg (pagesz_p cfg m bprm)) ++
        (nA :: (loop_writes cfg bprm.envp (dest_base cfg (pagesz_p cfg m bprm) + space bprm.argv)
            (env_base cfg m bprm) ++ [nE, psw])) := by
    simp only [string_writes, hde, hve, hvee, hnA, hnE, hpsw, List.append_assoc,
      List.singleton_append, List.cons_append, List.nil_append]
  have henv : ∀ y ∈ loop_writes cfg bprm.envp
      (dest_base cfg (pagesz_p cfg m bprm) + space bprm.argv) (env_base cfg m bprm),
      (dest_base cfg (pagesz_p cfg m bprm) + space bprm.argv ≤ y.addr ∧
        y.addr + y.bytes.length ≤ dest_base cfg (pagesz_p cfg m bprm) + stringspace bprm) ∨
      env_base cfg m bprm ≤ y.addr := by
    intro y hy
    rcases loop_writes_range cfg _ _ _ (by omega) (by rw [heb]; omega) y hy with
      ⟨_, h2, h3⟩ | ⟨_, h2, _⟩
    · left; exact ⟨h2, by omega⟩
    · right; exact h2
  refine ⟨?_, ?_, ?_, ?_⟩
  · intro i hi
    rw [hspl]
    obtain ⟨r1, r2⟩ := loop_read_back cfg bprm.argv (dest_base cfg (pagesz_p cfg m bprm))
      (argv_base cfg (pagesz_p cfg m bprm))
      (dest_base cfg (pagesz_p cfg m bprm) + stringspace bprm) (fixed_writes cfg m bprm)
      (nA :: (loop_writes cfg bprm.envp (dest_base cfg (pagesz_p cfg m bprm) + space bprm.argv)
            (env_base cfg m bprm) ++ [nE, psw])) mem0
      (by omega) hS (by omega)
      (by
        intro y hy
        rcases List.mem_cons.1 hy with rfl | hy
        · right; omega
        rcases List.mem_append.1 hy with hy | hy
        · rcases henv y hy with ⟨h2, h3⟩ | h2
          · left; exact ⟨by omega, h3⟩
          · right; omega
        · simp only [List.mem_cons, List.mem_singleton, List.not_mem_nil, or_false] at hy
          rcases hy with rfl | rfl
          · right; omega
          · right; omega)
      i hi
    have hsp := space_take_drop bprm.argv i hi
    exact ⟨read_ual_of_bytes cfg _ _ _ (by omega) r1, r2⟩
  · rw [hspl]
    have := read_back (fixed_writes cfg m bprm ++
        loop_writes cfg bprm.argv (dest_base cfg (pagesz_p cfg m bprm))
          (argv_base cfg (pagesz_p cfg m bprm)))
      (loop_writes cfg bprm.envp (dest_base cfg (pagesz_p cfg m bprm) + space bprm.argv)
            (env_base cfg m bprm) ++ [nE, psw]) nA mem0
      (by
        intro y hy
        rcases List.mem_append.1 hy with hy | hy
        · rcases henv y hy with ⟨_, h3⟩ | h2
          · left; omega
          · right; omega
        · simp only [List.mem_cons, List.mem_singleton, List.not_mem_nil, or_false] at hy
          rcases hy with rfl | rfl
          · right; omega
          · right; omega)
    rw [hnAa, hnAl, hnAb] at this
    exact read_ual_of_bytes cfg _ _ _ (modulus_pos cfg) this
  · intro j hj
    have hspl2 : fixed_writes cfg m bprm ++ string_writes cfg m bprm =
        (fixed_writes cfg m bprm ++
          loop_writes cfg bprm.argv (dest_base cfg (pagesz_p cfg m bprm))
            (argv_base cfg (pagesz_p cfg m bprm)) ++ [nA]) ++
          loop_writes cfg bprm.envp (dest_base cfg (pagesz_p cfg m bprm) + space bprm.argv)
            (env_base cfg m bprm) ++ [nE, psw] := by
      rw [hspl]
      simp only [List.append_assoc, List.singleton_append, List.cons_append, List.nil_append]
    rw [hspl2]
    obtain ⟨r1, r2⟩ := loop_read_back cfg bprm.envp
      (dest_base cfg (pagesz_p cfg m bprm) + space bprm.argv) (env_base cfg m bprm)
      (dest_base cfg (pagesz_p cfg m bprm) + stringspace bprm)
      (fixed_writes cfg m bprm ++
          loop_writes cfg bprm.argv (dest_base cfg (pagesz_p cfg m bprm))
            (argv_base cfg (pagesz_p cfg m bprm)) ++ [nA]) [nE, psw] mem0
      (by omega) (by rw [heb]; omega) (by rw [heb]; omega)
      (by
        intro y hy
        simp only [List.mem_cons, List.mem_singleton, List.not_mem_nil, or_false] at hy
        rcases hy with rfl | rfl
        · right; omega
        · right; rw [heb]; omega)
      j hj
    have hsp := space_take_drop bprm.envp j hj
    exact ⟨read_ual_of_bytes cfg _ _ _ (by omega) r1, r2⟩
  · have hspl3 : fixed_writes cfg m bprm ++ string_writes cfg m bprm =
        (fixed_writes cfg m bprm ++
          loop_writes cfg bprm.argv (dest_base cfg (pagesz_p cfg m bprm))
            (argv_base cfg (pagesz_p cfg m bprm)) ++ [nA] ++
          loop_writes cfg bprm.envp (dest_base cfg (pagesz_p cfg m bprm) + space bprm.argv)
            (env_base cfg m bprm)) ++ (nE :: [psw]) := by
      rw [hspl]
      simp only [List.append_assoc, List.singleton_append, List.cons_append, List.nil_append]
    rw [hspl3]
    have := read_back (fixed_writes cfg m bprm ++
          loop_writes cfg bprm.argv (dest_base cfg (pagesz_p cfg m bprm))
            (argv_base cfg (pagesz_p cfg m bprm)) ++ [nA] ++
          loop_writes cfg bprm.envp (dest_base cfg (pagesz_p cfg m bprm) + space bprm.argv)
            (env_base cfg m bprm)) [psw] nE mem0
      (by
        intro y hy
        simp only [List.mem_singleton] at hy
        subst hy
        right; rw [heb] at hnEa; omega)
    rw [hnEa, hnEl, hnEb] at this
    exact read_ual_of_bytes cfg _ _ _ (modulus_pos cfg) this

/-- Round trip when the layout does not overlap: after a call that returns 0,
if the string block ends at or below the argument pointer table and the
pointer tables end at or below the summary record, then word `i` of the table
at `ps_argvstr` addresses the bytes of `argv[i]` followed by NUL, and word `j`
of the table at `ps_envstr` addresses the bytes of `envp[j]` followed by NUL. -/
theorem round_trip_when_separate (cfg : Config) (m : Machine) (bprm : BsdBinprm) (ra : Bool)
    (mem0 : Nat → Nat) (h : (setup_initial_stack cfg m bprm ra ⟨mem0, []⟩).rc = 0)
    (hS : dest_base cfg (pagesz_p cfg m bprm) + stringspace bprm ≤
      argv_base cfg (pagesz_p cfg m bprm))
    (hT : tables_end cfg m bprm ≤ ps_addr cfg m) :
    (∀ i (hi : i < bprm.argv.length),
      read_bytes (setup_initial_stack cfg m bprm ra ⟨mem0, []⟩).guest.mem
        (read_ual cfg (setup_initial_stack cfg m bprm ra ⟨mem0, []⟩).guest.mem
          ((read_ps_strings cfg (setup_initial_stack cfg m bprm ra ⟨mem0, []⟩).guest.mem
            (ps_addr cfg m)).ps_argvstr + i * cfg.W))
        (strlen (bprm.argv.get ⟨i, hi⟩) + 1) = cbytes (bprm.argv.get ⟨i, hi⟩)) ∧
    (∀ j (hj : j < bprm.envp.length),
      read_bytes (setup_initial_stack cfg m bprm ra ⟨mem0, []⟩).guest.mem
        (read_ual cfg (setup_initial_stack cfg m bprm ra ⟨mem0, []⟩).guest.mem
          ((read_ps_strings cfg (setup_initial_stack cfg m bprm ra ⟨mem0, []⟩).guest.mem
            (ps_addr cfg m)).ps_envstr + j * cfg.W))
        (strlen (bprm.envp.get ⟨j, hj⟩) + 1) = cbytes (bprm.envp.get ⟨j, hj⟩)) := by
  obtain ⟨hA, _, hE, _⟩ := layout_read_back cfg m bprm ra mem0 h hS hT
  rw [read_summary_record cfg m bprm ra mem0 h]
  constructor
  · intro i hi
    obtain ⟨r1, r2⟩ := hA i hi
    simp only
    rw [r1]
    exact r2
  · intro j hj
    obtain ⟨r1, r2⟩ := hE j hj
    simp only
    rw [show add_ul cfg (argv_base cfg (pagesz_p cfg m bprm)) ((bprm.argc + 1) * cfg.W) =
      env_base cfg m bprm from rfl, r1]
    exact r2

/-- Null termination when the layout does not overlap and the string block
does not start at address 0: slot `argc` of the argument pointer table and
slot `envc` of the environment pointer table hold zero and the slots before
them do not. -/
theorem null_termination_when_separate (cfg : Config) (m : Machine) (bprm : BsdBinprm)
    (ra : Bool) (mem0 : Nat → Nat)
    (h : (setup_initial_stack cfg m bprm ra ⟨mem0, []⟩).rc = 0)
    (hS : dest_base cfg (pagesz_p cfg m bprm) + stringspace bprm ≤
      argv_base cfg (pagesz_p cfg m bprm))
    (hT : tables_end cfg m bprm ≤ ps_addr cfg m)
    (hpos : 0 < dest_base cfg (pagesz_p cfg m bprm)) :
    read_ual cfg (setup_initial_stack cfg m bprm ra ⟨mem0, []⟩).guest.mem
      ((read_ps_strings cfg (setup_initial_stack cfg m bprm ra ⟨mem0, []⟩).guest.mem
        (ps_addr cfg m)).ps_argvstr + bprm.argc * cfg.W) = 0 ∧
    (∀ i, i < bprm.argc →
      read_ual cfg (setup_initial_stack cfg m bprm ra ⟨mem0, []⟩).guest.mem
        ((read_ps_strings cfg (setup_initial_stack cfg m bprm ra ⟨mem0, []⟩).guest.mem
          (ps_addr cfg m)).ps_argvstr + i * cfg.W) ≠ 0) ∧
    read_ual cfg (setup_initial_stack cfg m bprm ra ⟨mem0, []⟩).guest.mem
      ((read_ps_strings cfg (setup_initial_stack cfg m bprm ra ⟨mem0, []⟩).guest.mem
        (ps_addr cfg m)).ps_envstr + bprm.envc * cfg.W) = 0 ∧
    (∀ j, j < bprm.envc →
      read_ual cfg (setup_initial_stack cfg m bprm ra ⟨mem0, []⟩).guest.mem
        ((read_ps_strings cfg (setup_initial_stack cfg m bprm ra ⟨mem0, []⟩).guest.mem
          (ps_addr cfg m)).ps_envstr + j * cfg.W) ≠ 0) := by
  obtain ⟨hA, hAn, hE, hEn⟩ := layout_read_back cfg m bprm ra mem0 h hS hT
  rw [read_summary_record cfg m bprm ra mem0 h]
  simp only
  rw [show add_ul cfg (argv_base cfg (pagesz_p cfg m bprm)) ((bprm.argc + 1) * cfg.W) =
      env_base cfg m bprm from rfl]
  refine ⟨hAn, ?_, hEn, ?_⟩
  · intro i hi
    rw [(hA i hi).1]
    omega
  · intro j hj
    rw [(hE j hj).1]
    omega

/-- Ordering when the layout does not overlap: if the arithmetic does not wrap,
the string block ends at or below the argument pointer table and the pointer
tables end at or below the region top, then after a call that returns 0 the
summary record is written at the top `sizeof(struct target_ps_strings)` bytes
of the region, no access ends above the region top, and every access that is
not a string copy starts at or above the end of every string copy. -/
theorem ordering_when_separate (cfg : Config) (m : Machine) (bprm : BsdBinprm)
    (ra : Bool) (mem0 : Nat → Nat)
    (h : (setup_initial_stack cfg m bprm ra ⟨mem0, []⟩).rc = 0)
    (hnw : NoWrap cfg m bprm)
    (hS : dest_base cfg (pagesz_p cfg m bprm) + stringspace bprm ≤
      argv_base cfg (pagesz_p cfg m bprm))
    (hT : tables_end cfg m bprm ≤ m.target_stkbas + m.target_stksiz) :
    (⟨Kind.psstrings, m.target_stkbas + m.target_stksiz - sizeof_ps_strings cfg,
        sizeof_ps_strings cfg, true⟩ : Access) ∈
      (setup_initial_stack cfg m bprm ra ⟨mem0, []⟩).guest.trace ∧
    (∀ b ∈ (setup_initial_stack cfg m bprm ra ⟨mem0, []⟩).guest.trace,
      b.addr + b.len ≤ m.target_stkbas + m.target_stksiz) ∧
    (∀ b ∈ (setup_initial_stack cfg m bprm ra ⟨mem0, []⟩).guest.trace,
      ∀ c ∈ (setup_initial_stack cfg m bprm ra ⟨mem0, []⟩).guest.trace,
      b.kind = Kind.string → c.kind ≠ Kind.string → b.addr + b.len ≤ c.addr) := by
  obtain ⟨e0, hfit, e6⟩ := stack_hi_nowrap cfg m bprm hnw
  obtain ⟨ea, hlo, hhi, _⟩ := bases_nowrap cfg m bprm hnw
  obtain ⟨e1, _, _, _, _, _⟩ := cursors_fit cfg m bprm (by omega)
  obtain ⟨_, hss, hall, _, _, _⟩ := setup_rc_zero cfg m bprm ra _ h
  have hW : 0 < cfg.W := by rcases W_cases cfg with ⟨h, _⟩ | ⟨h, _⟩ <;> omega
  have hfs : sizeof_ps_strings cfg + cfg.W ≤ fixed_size cfg bprm := by
    unfold fixed_size; omega
  have h1 := hnw.1
  have key : ∀ b ∈ (setup_initial_stack cfg m bprm ra ⟨mem0, []⟩).guest.trace,
      b.addr + b.len ≤ m.target_stkbas + m.target_stksiz ∧
      (b.kind = Kind.string →
        b.addr + b.len ≤ dest_base cfg (pagesz_p cfg m bprm) + stringspace bprm) ∧
      (b.kind ≠ Kind.string → argv_base cfg (pagesz_p cfg m bprm) ≤ b.addr) := by
    intro b hb
    obtain ⟨x, hx, hk, ha, hl⟩ := trace_from_writes cfg m bprm ra mem0 b hb
    rw [hk, ha, hl]
    rw [hall] at hx
    rcases List.mem_append.1 hx with hx | hx
    · have := fixed_writes_range cfg m bprm (by omega) x hx
      refine ⟨by omega, ?_, fun _ => by omega⟩
      intro hk2
      rcases fixed_writes_kind cfg m bprm x hx with h | h | h | h <;> rw [h] at hk2 <;>
        simp at hk2
    · rcases string_writes_layout cfg m bprm (by omega) (by omega) x hx with
        ⟨h2, h3, h4⟩ | ⟨h2, h3, h4⟩ | ⟨h2, h3, h4⟩
      · exact ⟨by omega, fun _ => h4, fun hn => absurd h2 hn⟩
      · refine ⟨by omega, ?_, fun _ => h3⟩
        intro hk2
        rcases h2 with h2 | h2 <;> rw [h2] at hk2 <;> simp at hk2
      · refine ⟨by omega, ?_, fun _ => by omega⟩
        intro hk2
        rw [h2] at hk2
        simp at hk2
  refine ⟨?_, fun b hb => (key b hb).1, ?_⟩
  · have hm : (⟨Kind.psstrings, ps_addr cfg m, ps_bytes cfg m.junk (ps_record cfg m bprm)⟩
        : Wr) ∈ fixed_writes cfg m bprm ++ string_writes cfg m bprm := by
      simp [string_writes]
    have := access_mem_trace cfg m bprm ra mem0 h _ hm
    rw [e1, e0] at this
    simpa [Wr.access, ps_bytes_length] using this
  · intro b hb c hc hbk hck
    have := ((key b hb).2.1 hbk)
    have := ((key c hc).2.2 hck)
    omega

theorem round_trip_when_separate_witness :
    (setup_initial_stack amd64 machine1 request1 true ⟨guest0.mem, []⟩).rc = 0 ∧
    dest_base amd64 (pagesz_p amd64 machine1 request1) + stringspace request1 ≤
      argv_base amd64 (pagesz_p amd64 machine1 request1) ∧
    tables_end amd64 machine1 request1 ≤ ps_addr amd64 machine1 ∧
    read_bytes (setup_initial_stack amd64 machine1 request1 true ⟨guest0.mem, []⟩).guest.mem
      (read_ual amd64 (setup_initial_stack amd64 machine1 request1 true ⟨guest0.mem, []⟩).guest.mem
        ((read_ps_strings amd64
          (setup_initial_stack amd64 machine1 request1 true ⟨guest0.mem, []⟩).guest.mem
          (ps_addr amd64 machine1)).ps_argvstr + 1 * amd64.W))
      (strlen (request1.argv.get ⟨1, by decide⟩) + 1) = cbytes (request1.argv.get ⟨1, by decide⟩) :=
  ⟨by decide, by decide, by decide,
    (round_trip_when_separate amd64 machine1 request1 true guest0.mem (by decide) (by decide)
      (by decide)).1 1 (by decide)⟩

theorem null_termination_when_separate_witness :
    (setup_initial_stack amd64 machine1 request1 true ⟨guest0.mem, []⟩).rc = 0 ∧
    dest_base amd64 (pagesz_p amd64 machine1 request1) + stringspace request1 ≤
      argv_base amd64 (pagesz_p amd64 machine1 request1) ∧
    tables_end amd64 machine1 request1 ≤ ps_addr amd64 machine1 ∧
    0 < dest_base amd64 (pagesz_p amd64 machine1 request1) ∧
    read_ual amd64 (setup_initial_stack amd64 machine1 request1 true ⟨guest0.mem, []⟩).guest.mem
      ((read_ps_strings amd64
        (setup_initial_stack amd64 machine1 request1 true ⟨guest0.mem, []⟩).guest.mem
        (ps_addr amd64 machine1)).ps_argvstr + request1.argc * amd64.W) = 0 :=
  ⟨by decide, by decide, by decide, by decide,
    (null_termination_when_separate amd64 machine1 request1 true guest0.mem (by decide)
      (by decide) (by decide) (by decide)).1⟩

theorem ordering_when_separate_witness :
    (setup_initial_stack amd64 machine1 request1 true ⟨guest0.mem, []⟩).rc = 0 ∧
    NoWrap amd64 machine1 request1 ∧
    dest_base amd64 (pagesz_p amd64 machine1 request1) + stringspace request1 ≤
      argv_base amd64 (pagesz_p amd64 machine1 request1) ∧
    tables_end amd64 machine1 request1 ≤ machine1.target_stkbas + machine1.target_stksiz ∧
    ∀ b ∈ (setup_initial_stack amd64 machine1 request1 true ⟨guest0.mem, []⟩).guest.trace,
      b.addr + b.len ≤ machine1.target_stkbas + machine1.target_stksiz :=
  ⟨by decide, ⟨by decide, by decide⟩, by decide, by decide,
    (ordering_when_separate amd64 machine1 request1 true guest0.mem (by decide)
      ⟨by decide, by decide⟩ (by decide) (by decide)).2.1⟩

/-! ### The closed form of the returned stack pointer -/

theorem sub_ul_zero (cfg : Config) (p : Nat) (h : p < cfg.modulus) : sub_ul cfg p 0 = p := by
  unfold sub_ul
  rcases W_cases cfg with ⟨_, hm⟩ | ⟨_, hm⟩ <;> rw [hm] at h ⊢ <;> omega

/-- The address of the page-size word as the chain of subtractions of lines
37-68. -/
theorem pagesz_p_eq (cfg : Config) (m : Machine) (bprm : BsdBinprm) :
    pagesz_p cfg m bprm =
      sub_ul cfg (sub_ul cfg (sub_ul cfg (sub_ul cfg
        (sub_ul cfg (to_ul cfg (m.target_stkbas + m.target_stksiz)) (sizeof_ps_strings cfg))
        (sig_size cfg)) (path_size cfg bprm)) (roundup (cfg.W * 8) cfg.W)) cfg.W := by
  have e1 : sig_p cfg m = sub_ul cfg
      (sub_ul cfg (to_ul cfg (m.target_stkbas + m.target_stksiz)) (sizeof_ps_strings cfg))
      (sig_size cfg) := by
    unfold sig_p sig_size stack_hi_addr
    cases cfg.sigcode with
    | none => simp only; rw [sub_ul_zero cfg _ (sub_ul_lt _ _ _)]
    | some code => rfl
  have e2 : path_p cfg m bprm = sub_ul cfg (sig_p cfg m) (path_size cfg bprm) := by
    unfold path_p path_size
    cases bprm.fullpath with
    | none =>
      simp only
      rw [sub_ul_zero cfg _ (by rw [e1]; exact sub_ul_lt _ _ _)]
    | some path => rfl
  rw [pagesz_p, canary_p, e2, e1]

/-- C13: after a call that returns 0 the value stored through a non-null
`ret_addr` is `roundup(top - sizeof(struct target_ps_strings) - TARGET_SZSIGCODE
- P - roundup(8 * sizeof(abi_long), W) - W - TARGET_SPACE_USRSPACE -
TARGET_ARG_MAX, W)` in `abi_ulong` arithmetic, with `top = target_stkbas +
target_stksiz`, the trampoline term zero where `TARGET_SZSIGCODE` is not
defined and `P` the rounded path length or zero; when the arithmetic does not
wrap this is the same expression over the natural numbers; and two successful
calls on the same region with paths of the same length return the same stack
pointer whatever their `argv` and `envp`. -/
theorem stack_pointer_closed_form (cfg : Config) (m : Machine) (bprm : BsdBinprm) (ra : Bool)
    (mem0 : Nat → Nat) (h : (setup_initial_stack cfg m bprm ra ⟨mem0, []⟩).rc = 0) :
    (setup_initial_stack cfg m bprm ra ⟨mem0, []⟩).ret =
      (if ra then some (to_ul cfg (roundup
        (sub_ul cfg (sub_ul cfg (sub_ul cfg (sub_ul cfg (sub_ul cfg (sub_ul cfg
          (sub_ul cfg (to_ul cfg (m.target_stkbas + m.target_stksiz)) (sizeof_ps_strings cfg))
          (sig_size cfg)) (path_size cfg bprm)) (roundup (cfg.W * 8) cfg.W)) cfg.W)
          cfg.usrSpace) cfg.argMax) cfg.W)) else none) ∧
    (NoWrap cfg m bprm →
      (setup_initial_stack cfg m bprm ra ⟨mem0, []⟩).ret =
        (if ra then some (roundup
          (m.target_stkbas + m.target_stksiz - sizeof_ps_strings cfg - sig_size cfg
            - path_size cfg bprm - roundup (cfg.W * 8) cfg.W - cfg.W - cfg.usrSpace
            - cfg.argMax) cfg.W) else none)) ∧
    (∀ (m2 : Machine) (bprm2 : BsdBinprm) (mem2 : Nat → Nat),
      m2.target_stkbas = m.target_stkbas → m2.target_stksiz = m.target_stksiz →
      bprm2.fullpath.map strlen = bprm.fullpath.map strlen →
      (setup_initial_stack cfg m2 bprm2 ra ⟨mem2, []⟩).rc = 0 →
      (setup_initial_stack cfg m2 bprm2 ra ⟨mem2, []⟩).ret =
        (setup_initial_stack cfg m bprm ra ⟨mem0, []⟩).ret) := by
  obtain ⟨_, _, _, _, hret, _⟩ := setup_rc_zero cfg m bprm ra _ h
  have key : ∀ (m1 : Machine) (b1 : BsdBinprm), dest_base cfg (pagesz_p cfg m1 b1) =
      to_ul cfg (roundup
        (sub_ul cfg (sub_ul cfg (sub_ul cfg (sub_ul cfg (sub_ul cfg (sub_ul cfg
          (sub_ul cfg (to_ul cfg (m1.target_stkbas + m1.target_stksiz)) (sizeof_ps_strings cfg))
          (sig_size cfg)) (path_size cfg b1)) (roundup (cfg.W * 8) cfg.W)) cfg.W)
          cfg.usrSpace) cfg.argMax) cfg.W) := by
    intro m1 b1
    rw [dest_base, pagesz_p_eq]
  refine ⟨by rw [hret, key], ?_, ?_⟩
  · intro hnw
    obtain ⟨_, hlo, hhi, _⟩ := bases_nowrap cfg m bprm hnw
    obtain ⟨e0, hfit, e6⟩ := stack_hi_nowrap cfg m bprm hnw
    have hq : sub_ul cfg (sub_ul cfg (pagesz_p cfg m bprm) cfg.usrSpace) cfg.argMax =
        m.target_stkbas + m.target_stksiz - sizeof_ps_strings cfg - sig_size cfg
            - path_size cfg bprm - roundup (cfg.W * 8) cfg.W - cfg.W - cfg.usrSpace
            - cfg.argMax := by
      have hfs : cfg.W ≤ fixed_size cfg bprm := by unfold fixed_size; omega
      rw [sub_ul_eq cfg (pagesz_p cfg m bprm) _ (by rw [e6]; omega) (by rw [e6]; have := hnw.1; omega),
        sub_ul_eq cfg _ _ (by rw [e6]; omega) (by rw [e6]; have := hnw.1; omega), e6]
      unfold fixed_size
      omega
    have hW : 0 < cfg.W := by rcases W_cases cfg with ⟨h, _⟩ | ⟨h, _⟩ <;> omega
    have hlt : roundup (sub_ul cfg (sub_ul cfg (pagesz_p cfg m bprm) cfg.usrSpace) cfg.argMax)
        cfg.W < cfg.modulus := by
      have := (roundup_ge cfg
        (sub_ul cfg (sub_ul cfg (pagesz_p cfg m bprm) cfg.usrSpace) cfg.argMax)).2.1
      have hfs : cfg.W ≤ fixed_size cfg bprm := by unfold fixed_size; omega
      have h1 := hnw.1
      rw [hq] at this ⊢
      omega
    rw [hret, dest_base, to_ul, Nat.mod_eq_of_lt hlt, hq]
  · intro m2 bprm2 mem2 hb hs hp h2
    obtain ⟨_, _, _, _, hret2, _⟩ := setup_rc_zero cfg m2 bprm2 ra _ h2
    have hps : path_size cfg bprm2 = path_size cfg bprm := by
      unfold path_size
      cases h1 : bprm2.fullpath <;> cases h3 : bprm.fullpath <;> rw [h1, h3] at hp <;>
        simp at hp ⊢
      rw [hp]
    rw [hret, hret2, key, key, hb, hs, hps]

theorem stack_pointer_closed_form_witness :
    (setup_initial_stack amd64 machine1 request1 true ⟨guest0.mem, []⟩).rc = 0 ∧
    NoWrap amd64 machine1 request1 ∧
    (setup_initial_stack amd64 machine1 request1 true ⟨guest0.mem, []⟩).ret =
      (if true then some (roundup
        (machine1.target_stkbas + machine1.target_stksiz - sizeof_ps_strings amd64
          - sig_size amd64 - path_size amd64 request1 - roundup (amd64.W * 8) amd64.W
          - amd64.W - amd64.usrSpace - amd64.argMax) amd64.W) else none) :=
  ⟨by decide, ⟨by decide, by decide⟩,
    (stack_pointer_closed_form amd64 machine1 request1 true guest0.mem (by decide)).2.1
      ⟨by decide, by decide⟩⟩

/-! ### Rounding and alignment -/

/-- C11 as stated fails: on a region ending at `0x7ffffffff004` the call
returns 0, `q = p - TARGET_SPACE_USRSPACE - TARGET_ARG_MAX` is 140737488084876,
which is 4 modulo 8, and the returned stack pointer is 140737488084880, the
next multiple of 8 above `q`, not 140737488084872, the multiple below it. -/
theorem cursor_rounding_counterexample :
    (setup_initial_stack amd64 machine_odd request1 true guest0).rc = 0 ∧
    sub_ul amd64 (sub_ul amd64 (pagesz_p amd64 machine_odd request1) amd64.usrSpace)
      amd64.argMax = 140737488084876 ∧
    140737488084876 / amd64.W * amd64.W = 140737488084872 ∧
    (setup_initial_stack amd64 machine_odd request1 true guest0).ret = some 140737488084880 := by
  decide

/-- C11, amended: after a call that returns 0, with `q` the page-size word's
address minus `TARGET_SPACE_USRSPACE` minus `TARGET_ARG_MAX`, the returned stack
pointer is `roundup(q, W)`: when that does not wrap it is the smallest multiple
of `sizeof(abi_ulong)` greater than or equal to `q`, and it equals `q` when `q`
is already a multiple of the word size. -/
theorem cursor_rounding (cfg : Config) (m : Machine) (bprm : BsdBinprm) (ra : Bool)
    (mem0 : Nat → Nat) (h : (setup_initial_stack cfg m bprm ra ⟨mem0, []⟩).rc = 0) :
    (setup_initial_stack cfg m bprm ra ⟨mem0, []⟩).ret =
      (if ra then some (to_ul cfg (roundup
        (sub_ul cfg (sub_ul cfg (pagesz_p cfg m bprm) cfg.usrSpace) cfg.argMax) cfg.W))
      else none) ∧
    (sub_ul cfg (sub_ul cfg (pagesz_p cfg m bprm) cfg.usrSpace) cfg.argMax + cfg.W
        ≤ cfg.modulus →
      sub_ul cfg (sub_ul cfg (pagesz_p cfg m bprm) cfg.usrSpace) cfg.argMax ≤
        to_ul cfg (roundup
          (sub_ul cfg (sub_ul cfg (pagesz_p cfg m bprm) cfg.usrSpace) cfg.argMax) cfg.W) ∧
      to_ul cfg (roundup
          (sub_ul cfg (sub_ul cfg (pagesz_p cfg m bprm) cfg.usrSpace) cfg.argMax) cfg.W) %
        cfg.W = 0 ∧
      ∀ k, sub_ul cfg (sub_ul cfg (pagesz_p cfg m bprm) cfg.usrSpace) cfg.argMax ≤ k →
        k % cfg.W = 0 →
        to_ul cfg (roundup
          (sub_ul cfg (sub_ul cfg (pagesz_p cfg m bprm) cfg.usrSpace) cfg.argMax) cfg.W) ≤ k) ∧
    (sub_ul cfg (sub_ul cfg (pagesz_p cfg m bprm) cfg.usrSpace) cfg.argMax % cfg.W = 0 →
      to_ul cfg (roundup
          (sub_ul cfg (sub_ul cfg (pagesz_p cfg m bprm) cfg.usrSpace) cfg.argMax) cfg.W) =
        sub_ul cfg (sub_ul cfg (pagesz_p cfg m bprm) cfg.usrSpace) cfg.argMax) := by
  obtain ⟨_, _, _, _, hret, _⟩ := setup_rc_zero cfg m bprm ra _ h
  have hq := sub_ul_lt cfg (sub_ul cfg (pagesz_p cfg m bprm) cfg.usrSpace) cfg.argMax
  rw [dest_base] at hret
  generalize sub_ul cfg (sub_ul cfg (pagesz_p cfg m bprm) cfg.usrSpace) cfg.argMax = q at hq hret ⊢
  refine ⟨hret, ?_, ?_⟩
  · intro hw
    refine ⟨(roundup_bounds cfg q hw).1, roundup_dvd cfg q, ?_⟩
    intro k hk hkW
    unfold to_ul roundup
    rcases W_cases cfg with ⟨hW, hm⟩ | ⟨hW, hm⟩ <;> simp only [hW, hm] at hw hkW ⊢ <;> omega
  · intro hqW
    unfold to_ul roundup
    rcases W_cases cfg with ⟨hW, hm⟩ | ⟨hW, hm⟩ <;> simp only [hW, hm] at hq hqW ⊢ <;> omega

theorem cursor_rounding_witness :
    (setup_initial_stack amd64 machine_odd request1 true ⟨guest0.mem, []⟩).rc = 0 ∧
    (setup_initial_stack amd64 machine_odd request1 true ⟨guest0.mem, []⟩).ret =
      (if true then some (to_ul amd64 (roundup
        (sub_ul amd64 (sub_ul amd64 (pagesz_p amd64 machine_odd request1) amd64.usrSpace)
          amd64.argMax) amd64.W))
      else none) :=
  ⟨by decide, (cursor_rounding amd64 machine_odd request1 true guest0.mem (by decide)).1⟩

theorem sub_ul_aligned (cfg : Config) (p n : Nat) (hp : p % cfg.W = 0) (hn : n % cfg.W = 0) :
    sub_ul cfg p n % cfg.W = 0 := by
  unfold sub_ul
  rcases W_cases cfg with ⟨hW, hm⟩ | ⟨hW, hm⟩ <;> simp only [hW, hm] at hp hn ⊢ <;> omega

theorem add_ul_aligned (cfg : Config) (p n : Nat) (hp : p % cfg.W = 0) (hn : n % cfg.W = 0) :
    add_ul cfg p n % cfg.W = 0 := by
  unfold add_ul
  rcases W_cases cfg with ⟨hW, hm⟩ | ⟨hW, hm⟩ <;> simp only [hW, hm] at hp hn ⊢ <;> omega

theorem to_ul_aligned (cfg : Config) (p : Nat) (hp : p % cfg.W = 0) :
    to_ul cfg p % cfg.W = 0 := by
  unfold to_ul
  rcases W_cases cfg with ⟨hW, hm⟩ | ⟨hW, hm⟩ <;> simp only [hW, hm] at hp ⊢ <;> omega

theorem W_mod_self (cfg : Config) : cfg.W % cfg.W = 0 := Nat.mod_self _

/-- The table cursor of a string loop stays word-aligned. -/
theorem loop_writes_aligned (cfg : Config) (strs : List CStr) (d v : Nat)
    (hv : v % cfg.W = 0) :
    (∀ x ∈ loop_writes cfg strs d v, x.kind = Kind.string ∨ x.addr % cfg.W = 0) ∧
    vec_end cfg strs v % cfg.W = 0 := by
  induction strs generalizing d v with
  | nil => simp [loop_writes, vec_end, hv]
  | cons s rest ih =>
    obtain ⟨h1, h2⟩ := ih (add_ul cfg d (strlen s + 1)) (add_ul cfg v cfg.W)
      (add_ul_aligned cfg v cfg.W hv (W_mod_self cfg))
    refine ⟨?_, h2⟩
    intro x hx
    simp only [loop_writes, List.mem_cons] at hx
    rcases hx with rfl | rfl | hx
    · left; rfl
    · right; exact hv
    · exact h1 x hx

/-- The cursors of the fixed upper area and the pointer-table base are
word-aligned when the region top, `TARGET_SZSIGCODE` and
`TARGET_SPACE_USRSPACE` are. -/
theorem cursors_aligned (cfg : Config) (m : Machine) (bprm : BsdBinprm)
    (htop : (m.target_stkbas + m.target_stksiz) % cfg.W = 0)
    (hsig : sig_size cfg % cfg.W = 0) (husr : cfg.usrSpace % cfg.W = 0) :
    ps_addr cfg m % cfg.W = 0 ∧ sig_p cfg m % cfg.W = 0 ∧ path_p cfg m bprm % cfg.W = 0 ∧
    canary_p cfg m bprm % cfg.W = 0 ∧ pagesz_p cfg m bprm % cfg.W = 0 ∧
    argv_base cfg (pagesz_p cfg m bprm) % cfg.W = 0 := by
  have h0 : stack_hi_addr cfg m % cfg.W = 0 := to_ul_aligned cfg _ htop
  have hps : sizeof_ps_strings cfg % cfg.W = 0 := by
    unfold sizeof_ps_strings; exact Nat.mul_mod_left _ _
  have e1 : ps_addr cfg m % cfg.W = 0 := sub_ul_aligned cfg _ _ h0 hps
  have e2 : sig_p cfg m % cfg.W = 0 := by
    unfold sig_p sig_size at *
    cases hs : cfg.sigcode with
    | none => exact e1
    | some code =>
      rw [hs] at hsig
      exact sub_ul_aligned cfg _ _ e1 hsig
  have e3 : path_p cfg m bprm % cfg.W = 0 := by
    unfold path_p
    cases hs : bprm.fullpath with
    | none => exact e2
    | some path => exact sub_ul_aligned cfg _ _ e2 (roundup_ge cfg _).2.2
  have e4 : canary_p cfg m bprm % cfg.W = 0 :=
    sub_ul_aligned cfg _ _ e3 (roundup_ge cfg _).2.2
  have e5 : pagesz_p cfg m bprm % cfg.W = 0 := sub_ul_aligned cfg _ _ e4 (W_mod_self cfg)
  exact ⟨e1, e2, e3, e4, e5, sub_ul_aligned cfg _ _ e5 husr⟩

/-- C12 as stated fails: on a region ending at `0x7ffffffff004` the call
returns 0 and the summary record, the canary, the page-size word and the
pointer-table slots are all written at addresses that are 4 modulo 8. -/
theorem subregion_alignment_counterexample :
    (setup_initial_stack amd64 machine_odd request1 true guest0).rc = 0 ∧
    (⟨Kind.psstrings, 140737488351204, 32, true⟩ : Access) ∈
      (setup_initial_stack amd64 machine_odd request1 true guest0).guest.trace ∧
    (⟨Kind.pagesizes, 140737488351116, 8, true⟩ : Access) ∈
      (setup_initial_stack amd64 machine_odd request1 true guest0).guest.trace ∧
    (⟨Kind.vector, 140737488347020, 8, true⟩ : Access) ∈
      (setup_initial_stack amd64 machine_odd request1 true guest0).guest.trace ∧
    140737488351204 % amd64.W = 4 ∧ 140737488351116 % amd64.W = 4 ∧
    140737488347020 % amd64.W = 4 := by
  decide

/-- C12, amended: when the region top `target_stkbas + target_stksiz`,
`TARGET_SZSIGCODE` (where defined) and `TARGET_SPACE_USRSPACE` are multiples of
`sizeof(abi_ulong)`, every access of a call that is not a string copy (the
summary record, the trampoline, the executable path, the canary, the page-size
word, every pointer-table slot and both terminators) starts at a multiple of
`sizeof(abi_ulong)`. -/
theorem subregion_alignment (cfg : Config) (m : Machine) (bprm : BsdBinprm) (ra : Bool)
    (mem0 : Nat → Nat)
    (htop : (m.target_stkbas + m.target_stksiz) % cfg.W = 0)
    (hsig : sig_size cfg % cfg.W = 0) (husr : cfg.usrSpace % cfg.W = 0) :
    ∀ b ∈ (setup_initial_stack cfg m bprm ra ⟨mem0, []⟩).guest.trace,
      b.kind ≠ Kind.string → b.addr % cfg.W = 0 := by
  intro b hb hk
  obtain ⟨x, hx, hkx, ha, _⟩ := trace_from_writes cfg m bprm ra mem0 b hb
  rw [ha]
  rw [hkx] at hk
  obtain ⟨e1, e2, e3, e4, e5, e6⟩ := cursors_aligned cfg m bprm htop hsig husr
  have henv : env_base cfg m bprm % cfg.W = 0 :=
    add_ul_aligned cfg _ _ e6 (Nat.mul_mod_left _ _)
  unfold all_writes at hx
  rcases List.mem_append.1 hx with hx | hx
  · unfold fixed_writes at hx
    cases hs : cfg.sigcode <;> cases hp : bprm.fullpath <;>
      simp only [hs, hp, List.nil_append, List.cons_append, List.mem_cons,
        List.mem_singleton, List.not_mem_nil, or_false] at hx <;>
      rcases hx with rfl | rfl | rfl | rfl <;> assumption
  · by_cases hss : stringspace bprm > cfg.argMax
    · simp [hss] at hx
    · simp only [hss, if_false] at hx
      simp only [string_writes, List.mem_append, List.mem_singleton] at hx
      rcases hx with (((hx | rfl) | hx) | rfl) | rfl
      · rcases (loop_writes_aligned cfg bprm.argv _ _ e6).1 x hx with h1 | h1
        · exact absurd h1 hk
        · exact h1
      · exact (loop_writes_aligned cfg bprm.argv (dest_base cfg (pagesz_p cfg m bprm)) _ e6).2
      · rcases (loop_writes_aligned cfg bprm.envp _ _ henv).1 x hx with h1 | h1
        · exact absurd h1 hk
        · exact h1
      · exact (loop_writes_aligned cfg bprm.envp
          (dest_end cfg bprm.argv (dest_base cfg (pagesz_p cfg m bprm))) _ henv).2
      · exact e1

theorem subregion_alignment_witness :
    (machine1.target_stkbas + machine1.target_stksiz) % amd64.W = 0 ∧
    sig_size amd64 % amd64.W = 0 ∧ amd64.usrSpace % amd64.W = 0 ∧
    ∀ b ∈ (setup_initial_stack amd64 machine1 request1 true ⟨guest0.mem, []⟩).guest.trace,
      b.kind ≠ Kind.string → b.addr % amd64.W = 0 :=
  ⟨by decide, by decide, by decide,
    subregion_alignment amd64 machine1 request1 true guest0.mem (by decide) (by decide)
      (by decide)⟩

/-! ### The layout of the fixed upper area -/

/-- Where the string copies of a loop go when the string cursor does not
wrap. -/
theorem loop_writes_string_range (cfg : Config) (strs : List CStr) (d v : Nat)
    (hd : d + space strs < cfg.modulus) (x : Wr) (hx : x ∈ loop_writes cfg strs d v)
    (hk : x.kind = Kind.string) :
    d ≤ x.addr ∧ x.addr + x.bytes.length ≤ d + space strs := by
  induction strs generalizing d v with
  | nil => simp [loop_writes] at hx
  | cons s rest ih =>
    simp only [space] at hd ⊢
    simp only [loop_writes, List.mem_cons] at hx
    rcases hx with rfl | rfl | hx
    · simp only [cbytes, strlen, List.length_append, List.length_singleton] at *
      exact ⟨Nat.le_refl _, by omega⟩
    · simp at hk
    · rw [add_ul_eq cfg d _ (by omega)] at hx
      have := ih _ _ (by omega) hx
      omega

/-- Every string copy of lines 102-139 lies in
`[destp, destp + stringspace)` when that range does not wrap. -/
theorem string_writes_string_range (cfg : Config) (m : Machine) (bprm : BsdBinprm)
    (hd : dest_base cfg (pagesz_p cfg m bprm) + stringspace bprm < cfg.modulus)
    (x : Wr) (hx : x ∈ string_writes cfg m bprm) (hk : x.kind = Kind.string) :
    dest_base cfg (pagesz_p cfg m bprm) ≤ x.addr ∧
    x.addr + x.bytes.length ≤ dest_base cfg (pagesz_p cfg m bprm) + stringspace bprm := by
  rw [stringspace_eq] at hd ⊢
  have hde : dest_end cfg bprm.argv (dest_base cfg (pagesz_p cfg m bprm)) =
      dest_base cfg (pagesz_p cfg m bprm) + space bprm.argv := by
    rw [dest_end_eq cfg _ _ (dest_base_lt _ _), add_ul_eq cfg _ _ (by omega)]
  simp only [string_writes, List.mem_append, List.mem_singleton] at hx
  rcases hx with (((hx | rfl) | hx) | rfl) | rfl
  · have := loop_writes_string_range cfg bprm.argv _ _ (by omega) x hx hk
    omega
  · simp at hk
  · rw [hde] at hx
    have := loop_writes_string_range cfg bprm.envp _ _ (by omega) x hx hk
    omega
  · simp at hk
  · simp at hk

/-- C16 as stated fails when the subtraction of `TARGET_ARG_MAX` wraps: on a
4208-byte region at address 0 with one empty argument, `stringspace = 1`, the
pointer tables start at address 8, `q = 8 - TARGET_ARG_MAX` wraps to
`2 ^ 64 - 262136`, a multiple of 8, the string block starts there, and
`destp + stringspace` is far above `argvp`. -/
theorem strings_below_tables_counterexample :
    (setup_initial_stack amd64 (machine_bottom 4208) (request_many 1) true guest0).rc = 0 ∧
    stringspace (request_many 1) ≤ amd64.argMax ∧
    argv_base amd64 (pagesz_p amd64 (machine_bottom 4208) (request_many 1)) = 8 ∧
    sub_ul amd64 (sub_ul amd64 (pagesz_p amd64 (machine_bottom 4208) (request_many 1))
      amd64.usrSpace) amd64.argMax % amd64.W = 0 ∧
    dest_base amd64 (pagesz_p amd64 (machine_bottom 4208) (request_many 1)) =
      18446744073709289480 ∧
    ¬ (dest_base amd64 (pagesz_p amd64 (machine_bottom 4208) (request_many 1)) +
        stringspace (request_many 1) ≤
      argv_base amd64 (pagesz_p amd64 (machine_bottom 4208) (request_many 1))) := by
  decide

/-- C16, amended: when the address arithmetic does not wrap and `stringspace`
is within `TARGET_ARG_MAX`, the string block ends at or below
`argvp + sizeof(abi_ulong) - 1`, where `argvp` is the page-size word's address
minus `TARGET_SPACE_USRSPACE`; and when the page-size word's address minus
`TARGET_SPACE_USRSPACE` minus `TARGET_ARG_MAX` is a multiple of
`sizeof(abi_ulong)`, the string block starts there and ends at or below
`argvp`, so every string copy of the call ends at or below the base of the
pointer tables. -/
theorem strings_below_tables (cfg : Config) (m : Machine) (bprm : BsdBinprm) (ra : Bool)
    (mem0 : Nat → Nat) (hnw : NoWrap cfg m bprm) (hss : stringspace bprm ≤ cfg.argMax) :
    argv_base cfg (pagesz_p cfg m bprm) = pagesz_p cfg m bprm - cfg.usrSpace ∧
    dest_base cfg (pagesz_p cfg m bprm) + stringspace bprm ≤
      argv_base cfg (pagesz_p cfg m bprm) + cfg.W - 1 ∧
    (∀ b ∈ (setup_initial_stack cfg m bprm ra ⟨mem0, []⟩).guest.trace, b.kind = Kind.string →
      dest_base cfg (pagesz_p cfg m bprm) ≤ b.addr ∧
      b.addr + b.len ≤ dest_base cfg (pagesz_p cfg m bprm) + stringspace bprm) ∧
    ((pagesz_p cfg m bprm - cfg.usrSpace - cfg.argMax) % cfg.W = 0 →
      dest_base cfg (pagesz_p cfg m bprm) = pagesz_p cfg m bprm - cfg.usrSpace - cfg.argMax ∧
      dest_base cfg (pagesz_p cfg m bprm) + stringspace bprm ≤
        argv_base cfg (pagesz_p cfg m bprm) ∧
      ∀ b ∈ (setup_initial_stack cfg m bprm ra ⟨mem0, []⟩).guest.trace,
        b.kind = Kind.string → b.addr + b.len ≤ argv_base cfg (pagesz_p cfg m bprm)) := by
  obtain ⟨ea, hlo, hhi, hdvd⟩ := bases_nowrap cfg m bprm hnw
  obtain ⟨e0, hfit, e6⟩ := stack_hi_nowrap cfg m bprm hnw
  have hW : 0 < cfg.W := by rcases W_cases cfg with ⟨h, _⟩ | ⟨h, _⟩ <;> omega
  have hfs : cfg.W ≤ fixed_size cfg bprm := by unfold fixed_size; omega
  have h1 := hnw.1
  have hpu : cfg.usrSpace + cfg.argMax ≤ pagesz_p cfg m bprm := by rw [e6]; omega
  have hpt : pagesz_p cfg m bprm + cfg.W ≤ m.target_stkbas + m.target_stksiz := by
    rw [e6]; omega
  have hstr : ∀ b ∈ (setup_initial_stack cfg m bprm ra ⟨mem0, []⟩).guest.trace,
      b.kind = Kind.string →
      dest_base cfg (pagesz_p cfg m bprm) ≤ b.addr ∧
      b.addr + b.len ≤ dest_base cfg (pagesz_p cfg m bprm) + stringspace bprm := by
    intro b hb hk
    obtain ⟨x, hx, hkx, ha, hl⟩ := trace_from_writes cfg m bprm ra mem0 b hb
    rw [hkx] at hk
    rw [ha, hl]
    unfold all_writes at hx
    rcases List.mem_append.1 hx with hx | hx
    · rcases fixed_writes_kind cfg m bprm x hx with h | h | h | h <;> rw [h] at hk <;>
        simp at hk
    · by_cases hgt : stringspace bprm > cfg.argMax
      · omega
      · simp only [hgt, if_false] at hx
        exact string_writes_string_range cfg m bprm (by omega) x hx hk
  refine ⟨ea, by omega, hstr, ?_⟩
  intro hq
  have hd : dest_base cfg (pagesz_p cfg m bprm) =
      pagesz_p cfg m bprm - cfg.usrSpace - cfg.argMax := by
    generalize pagesz_p cfg m bprm - cfg.usrSpace - cfg.argMax = q at hlo hhi hq
    generalize dest_base cfg (pagesz_p cfg m bprm) = dd at hlo hhi hdvd
    rcases W_cases cfg with ⟨hW8, _⟩ | ⟨hW4, _⟩
    · rw [hW8] at hhi hq hdvd; omega
    · rw [hW4] at hhi hq hdvd; omega
  refine ⟨hd, by omega, ?_⟩
  intro b hb hk
  have := hstr b hb hk
  omega

theorem strings_below_tables_witness :
    NoWrap amd64 machine1 request1 ∧ stringspace request1 ≤ amd64.argMax ∧
    dest_base amd64 (pagesz_p amd64 machine1 request1) + stringspace request1 ≤
      argv_base amd64 (pagesz_p amd64 machine1 request1) + amd64.W - 1 :=
  ⟨⟨by decide, by decide⟩, by decide,
    (strings_below_tables amd64 machine1 request1 true guest0.mem ⟨by decide, by decide⟩
      (by decide)).2.1⟩

/-- The string block is a contiguous concatenation when the layout does not
overlap: after a call that returns 0, if the string block ends at or below the
argument pointer table and the pointer tables end at or below the summary
record, slot `i` of the argument table holds `d` plus the sum of `strlen + 1`
over the arguments before `argv[i]`, slot `k` of the environment table holds `d`
plus that sum over all arguments and over the environment strings before
`envp[k]`, each string is copied to the address its slot holds, and `d` is the
returned stack pointer. -/
theorem string_block_contiguous_when_separate (cfg : Config) (m : Machine) (bprm : BsdBinprm)
    (ra : Bool) (mem0 : Nat → Nat)
    (h : (setup_initial_stack cfg m bprm ra ⟨mem0, []⟩).rc = 0)
    (hS : dest_base cfg (pagesz_p cfg m bprm) + stringspace bprm ≤
      argv_base cfg (pagesz_p cfg m bprm))
    (hT : tables_end cfg m bprm ≤ ps_addr cfg m) :
    (setup_initial_stack cfg m bprm ra ⟨mem0, []⟩).ret =
      (if ra then some (dest_base cfg (pagesz_p cfg m bprm)) else none) ∧
    (∀ i (hi : i < bprm.argv.length),
      read_ual cfg (setup_initial_stack cfg m bprm ra ⟨mem0, []⟩).guest.mem
          (argv_base cfg (pagesz_p cfg m bprm) + i * cfg.W) =
        dest_base cfg (pagesz_p cfg m bprm) +
          ((bprm.argv.take i).map (fun s => s.length + 1)).sum ∧
      (⟨Kind.string, dest_base cfg (pagesz_p cfg m bprm) +
          ((bprm.argv.take i).map (fun s => s.length + 1)).sum,
        strlen (bprm.argv.get ⟨i, hi⟩) + 1, true⟩ : Access) ∈
        (setup_initial_stack cfg m bprm ra ⟨mem0, []⟩).guest.trace) ∧
    (∀ k (hk : k < bprm.envp.length),
      read_ual cfg (setup_initial_stack cfg m bprm ra ⟨mem0, []⟩).guest.mem
          (env_base cfg m bprm + k * cfg.W) =
        dest_base cfg (pagesz_p cfg m bprm) +
          (bprm.argv.map (fun s => s.length + 1)).sum +
          ((bprm.envp.take k).map (fun s => s.length + 1)).sum ∧
      (⟨Kind.string, dest_base cfg (pagesz_p cfg m bprm) +
          (bprm.argv.map (fun s => s.length + 1)).sum +
          ((bprm.envp.take k).map (fun s => s.length + 1)).sum,
        strlen (bprm.envp.get ⟨k, hk⟩) + 1, true⟩ : Access) ∈
        (setup_initial_stack cfg m bprm ra ⟨mem0, []⟩).guest.trace) := by
  obtain ⟨hA, _, hE, _⟩ := layout_read_back cfg m bprm ra mem0 h hS hT
  obtain ⟨_, _, _, _, hret, _⟩ := setup_rc_zero cfg m bprm ra _ h
  have hal := argv_base_lt cfg (pagesz_p cfg m bprm)
  have hpl := ps_addr_lt cfg m
  obtain ⟨hde, _, heb, _, _⟩ := loop_bases cfg m bprm (by omega) (by omega)
  have hss := stringspace_eq bprm
  refine ⟨hret, ?_, ?_⟩
  · intro i hi
    rw [← space_eq_sum]
    refine ⟨(hA i hi).1, ?_⟩
    have hm := (loop_slot_mem cfg bprm.argv (dest_base cfg (pagesz_p cfg m bprm))
      (argv_base cfg (pagesz_p cfg m bprm)) i hal hi).2
    have hsp := space_take_drop bprm.argv i hi
    rw [dest_end_eq cfg _ _ (dest_base_lt _ _), add_ul_eq cfg _ _ (by omega)] at hm
    have := access_mem_trace cfg m bprm ra mem0 h _ (argv_loop_mem cfg m bprm _ hm)
    simpa [Wr.access, cbytes, strlen] using this
  · intro k hk
    rw [← space_eq_sum, ← space_eq_sum]
    refine ⟨(hE k hk).1, ?_⟩
    have hm := (loop_slot_mem cfg bprm.envp
      (dest_end cfg bprm.argv (dest_base cfg (pagesz_p cfg m bprm)))
      (env_base cfg m bprm) k (add_ul_lt _ _ _) hk).2
    have hsp := space_take_drop bprm.envp k hk
    rw [hde, dest_end_eq cfg _ _ (by omega), add_ul_eq cfg _ _ (by omega)] at hm
    have := access_mem_trace cfg m bprm ra mem0 h _ (envp_loop_mem cfg m bprm _ (by rw [hde]; exact hm))
    simpa [Wr.access, cbytes, strlen] using this

theorem string_block_contiguous_when_separate_witness :
    (setup_initial_stack amd64 machine1 request1 true ⟨guest0.mem, []⟩).rc = 0 ∧
    dest_base amd64 (pagesz_p amd64 machine1 request1) + stringspace request1 ≤
      argv_base amd64 (pagesz_p amd64 machine1 request1) ∧
    tables_end amd64 machine1 request1 ≤ ps_addr amd64 machine1 ∧
    read_ual amd64 (setup_initial_stack amd64 machine1 request1 true ⟨guest0.mem, []⟩).guest.mem
        (argv_base amd64 (pagesz_p amd64 machine1 request1) + 1 * amd64.W) =
      dest_base amd64 (pagesz_p amd64 machine1 request1) +
        ((request1.argv.take 1).map (fun s => s.length + 1)).sum :=
  ⟨by decide, by decide, by decide,
    ((string_block_contiguous_when_separate amd64 machine1 request1 true guest0.mem (by decide)
      (by decide) (by decide)).2.1 1 (by decide)).1⟩

/-! ### The pointer tables and the fixed upper area -/

theorem env_base_lt (cfg : Config) (m : Machine) (bprm : BsdBinprm) :
    env_base cfg m bprm < cfg.modulus :=
  add_ul_lt _ _ _

/-- After a call that returns 0, every one of the `argc + envc + 2` words from
`argvp` on has been stored by the call. -/
theorem slot_access (cfg : Config) (m : Machine) (bprm : BsdBinprm) (ra : Bool)
    (mem0 : Nat → Nat) (h : (setup_initial_stack cfg m bprm ra ⟨mem0, []⟩).rc = 0)
    (k : Nat) (hk : k < bprm.argc + bprm.envc + 2) :
    ∃ b ∈ (setup_initial_stack cfg m bprm ra ⟨mem0, []⟩).guest.trace,
      (b.kind = Kind.vector ∨ b.kind = Kind.nullptr) ∧
      b.addr = add_ul cfg (argv_base cfg (pagesz_p cfg m bprm)) (k * cfg.W) ∧
      b.len = cfg.W ∧ b.ok = true := by
  have hal := argv_base_lt cfg (pagesz_p cfg m bprm)
  unfold BsdBinprm.argc BsdBinprm.envc at hk
  have henv : ∀ j, add_ul cfg (env_base cfg m bprm) (j * cfg.W) =
      add_ul cfg (argv_base cfg (pagesz_p cfg m bprm)) ((bprm.argv.length + 1 + j) * cfg.W) := by
    intro j
    rw [env_base, add_ul_add_ul]
    unfold BsdBinprm.argc
    congr 1
    ring
  by_cases h1 : k < bprm.argv.length
  · have hm := (loop_slot_mem cfg bprm.argv (dest_base cfg (pagesz_p cfg m bprm))
      (argv_base cfg (pagesz_p cfg m bprm)) k hal h1).1
    exact ⟨_, access_mem_trace cfg m bprm ra mem0 h _ (argv_loop_mem cfg m bprm _ hm),
      Or.inl rfl, rfl, scalar_bytes_length _ _ _, rfl⟩
  by_cases h2 : k = bprm.argv.length
  · have hm : (⟨Kind.nullptr, vec_end cfg bprm.argv (argv_base cfg (pagesz_p cfg m bprm)),
        scalar_bytes cfg cfg.W 0⟩ : Wr) ∈ fixed_writes cfg m bprm ++ string_writes cfg m bprm := by
      simp [string_writes]
    refine ⟨_, access_mem_trace cfg m bprm ra mem0 h _ hm, Or.inr rfl, ?_,
      scalar_bytes_length _ _ _, rfl⟩
    show vec_end cfg bprm.argv (argv_base cfg (pagesz_p cfg m bprm)) = _
    rw [vec_end_eq cfg _ _ hal, h2]
  by_cases h3 : k < bprm.argv.length + 1 + bprm.envp.length
  · have hj : k - (bprm.argv.length + 1) < bprm.envp.length := by omega
    have hm := (loop_slot_mem cfg bprm.envp
      (dest_end cfg bprm.argv (dest_base cfg (pagesz_p cfg m bprm)))
      (env_base cfg m bprm) (k - (bprm.argv.length + 1)) (env_base_lt cfg m bprm) hj).1
    refine ⟨_, access_mem_trace cfg m bprm ra mem0 h _ (envp_loop_mem cfg m bprm _ hm),
      Or.inl rfl, ?_, scalar_bytes_length _ _ _, rfl⟩
    show add_ul cfg (env_base cfg m bprm) ((k - (bprm.argv.length + 1)) * cfg.W) = _
    rw [henv]
    congr 2
    omega
  · have hm : (⟨Kind.nullptr, vec_end cfg bprm.envp (env_base cfg m bprm),
        scalar_bytes cfg cfg.W 0⟩ : Wr) ∈ fixed_writes cfg m bprm ++ string_writes cfg m bprm := by
      simp [string_writes]
    refine ⟨_, access_mem_trace cfg m bprm ra mem0 h _ hm, Or.inr rfl, ?_,
      scalar_bytes_length _ _ _, rfl⟩
    show vec_end cfg bprm.envp (env_base cfg m bprm) = _
    rw [vec_end_eq cfg _ _ (env_base_lt cfg m bprm), henv]
    congr 2
    omega

theorem writable_range_of_bounds (w : Nat → Bool) (lo hi addr len : Nat)
    (hw : ∀ a, lo ≤ a → a < hi → w a = true) (h1 : lo ≤ addr) (h2 : addr + len ≤ hi) :
    writable_range w addr len = true := by
  unfold writable_range
  rw [List.all_eq_true]
  intro i hi2
  have := List.mem_range.1 hi2
  exact hw _ (by omega) (by omega)

theorem writable_range_byte (w : Nat → Bool) (addr len : Nat)
    (h : writable_range w addr len = true) (i : Nat) (hi : i < len) : w (addr + i) = true := by
  unfold writable_range at h
  rw [List.all_eq_true] at h
  exact h i (List.mem_range.2 hi)

/-- Every write of a call whose address arithmetic does not wrap, whose
strings fit and whose pointer tables end at or below the region top lies
between the unrounded string base and the region top. -/
theorem all_writes_range (cfg : Config) (m : Machine) (bprm : BsdBinprm)
    (hnw : NoWrap cfg m bprm) (hss : stringspace bprm ≤ cfg.argMax)
    (hT : tables_end cfg m bprm ≤ m.target_stkbas + m.target_stksiz)
    (x : Wr) (hx : x ∈ all_writes cfg m bprm) :
    pagesz_p cfg m bprm - cfg.usrSpace - cfg.argMax ≤ x.addr ∧
    x.addr + x.bytes.length ≤ m.target_stkbas + m.target_stksiz := by
  obtain ⟨ea, hlo, hhi, _⟩ := bases_nowrap cfg m bprm hnw
  obtain ⟨e0, hfit, e6⟩ := stack_hi_nowrap cfg m bprm hnw
  have e1 := (cursors_fit cfg m bprm (by omega)).1
  have hW : 0 < cfg.W := by rcases W_cases cfg with ⟨h, _⟩ | ⟨h, _⟩ <;> omega
  have hfs : sizeof_ps_strings cfg + cfg.W ≤ fixed_size cfg bprm := by unfold fixed_size; omega
  have h1 := hnw.1
  have h2 := hnw.2
  have hgt : ¬ stringspace bprm > cfg.argMax := by omega
  unfold all_writes at hx
  simp only [hgt, if_false] at hx
  rcases List.mem_append.1 hx with hx | hx
  · have := fixed_writes_range cfg m bprm (by omega) x hx
    omega
  · have hd : dest_base cfg (pagesz_p cfg m bprm) + stringspace bprm < cfg.modulus := by omega
    have htab : tables_end cfg m bprm < cfg.modulus := by omega
    rcases string_writes_layout cfg m bprm hd htab x hx with
      ⟨_, h3, h4⟩ | ⟨_, h3, h4⟩ | ⟨_, h3, h4⟩
    · omega
    · omega
    · omega

/-- The call returns 0 when the address arithmetic does not wrap, the strings
fit, the pointer tables end at or below the region top and every address from
the unrounded string base to the region top is writable. -/
theorem setup_ok_of_region (cfg : Config) (m : Machine) (bprm : BsdBinprm) (ra : Bool)
    (g : Guest) (hnw : NoWrap cfg m bprm) (hss : stringspace bprm ≤ cfg.argMax)
    (hT : tables_end cfg m bprm ≤ m.target_stkbas + m.target_stksiz)
    (hw : ∀ a, pagesz_p cfg m bprm - cfg.usrSpace - cfg.argMax ≤ a →
      a < m.target_stkbas + m.target_stksiz → m.writable a = true) :
    (setup_initial_stack cfg m bprm ra g).rc = 0 := by
  have hgt : ¬ stringspace bprm > cfg.argMax := by omega
  have h3 := exec_writes_of_writable m.writable (all_writes cfg m bprm) g
    (fun x hx => writable_range_of_bounds _ _ _ _ _ hw
      (all_writes_range cfg m bprm hnw hss hT x hx).1
      (all_writes_range cfg m bprm hnw hss hT x hx).2)
  rw [setup_eq]
  simp [h3, hgt]

/-- The first string copy and the first slot store of a successful call with
one argument of `n` bytes. -/
theorem request_long_accesses (cfg : Config) (m : Machine) (n : Nat) (ra : Bool)
    (mem0 : Nat → Nat)
    (h : (setup_initial_stack cfg m (request_long n) ra ⟨mem0, []⟩).rc = 0) :
    (⟨Kind.string, dest_base cfg (pagesz_p cfg m (request_long n)), n + 1, true⟩ : Access) ∈
      (setup_initial_stack cfg m (request_long n) ra ⟨mem0, []⟩).guest.trace ∧
    (⟨Kind.vector, argv_base cfg (pagesz_p cfg m (request_long n)), cfg.W, true⟩ : Access) ∈
      (setup_initial_stack cfg m (request_long n) ra ⟨mem0, []⟩).guest.trace := by
  have hi : 0 < (request_long n).argv.length := by simp [request_long]
  obtain ⟨hv, hs⟩ := loop_slot_mem cfg (request_long n).argv
    (dest_base cfg (pagesz_p cfg m (request_long n)))
    (argv_base cfg (pagesz_p cfg m (request_long n))) 0 (argv_base_lt _ _) hi
  have a1 := access_mem_trace cfg m _ ra mem0 h _ (argv_loop_mem cfg m _ _ hs)
  have a2 := access_mem_trace cfg m _ ra mem0 h _ (argv_loop_mem cfg m _ _ hv)
  have e1 : (cbytes ((request_long n).argv.get ⟨0, hi⟩)).length = n + 1 := by
    simp [request_long, cbytes]
  simp only [Wr.access, List.take_zero, dest_end, e1, Nat.zero_mul,
    add_ul_zero cfg _ (argv_base_lt cfg _), scalar_bytes_length] at a1 a2
  exact ⟨a1, a2⟩

/-- The pointer tables end at or below the region top after a call that
returns 0 when no address at or above the top is writable. -/
theorem tables_end_le_top (cfg : Config) (m : Machine) (bprm : BsdBinprm) (ra : Bool)
    (mem0 : Nat → Nat) (h : (setup_initial_stack cfg m bprm ra ⟨mem0, []⟩).rc = 0)
    (hnw : NoWrap cfg m bprm)
    (hw : ∀ a, m.target_stkbas + m.target_stksiz ≤ a → m.writable a = false) :
    tables_end cfg m bprm ≤ m.target_stkbas + m.target_stksiz := by
  obtain ⟨ea, hlo, hhi, _⟩ := bases_nowrap cfg m bprm hnw
  obtain ⟨e0, hfit, e6⟩ := stack_hi_nowrap cfg m bprm hnw
  obtain ⟨hex, _, hall, _, _, _⟩ := setup_rc_zero cfg m bprm ra _ h
  obtain ⟨_, _, hwr⟩ := exec_writes_ok _ _ _ hex
  have hW : 0 < cfg.W := by rcases W_cases cfg with ⟨h, _⟩ | ⟨h, _⟩ <;> omega
  have h1 := hnw.1
  have h2 := hnw.2
  by_contra hc
  unfold tables_end at hc
  have hk : (m.target_stkbas + m.target_stksiz - argv_base cfg (pagesz_p cfg m bprm)) / cfg.W <
      bprm.argc + bprm.envc + 2 := by
    by_contra hk
    have h3 : (bprm.argc + bprm.envc + 2) * cfg.W ≤
        (m.target_stkbas + m.target_stksiz - argv_base cfg (pagesz_p cfg m bprm)) / cfg.W
          * cfg.W := Nat.mul_le_mul_right _ (by omega)
    have h4 := Nat.div_mul_le_self
      (m.target_stkbas + m.target_stksiz - argv_base cfg (pagesz_p cfg m bprm)) cfg.W
    omega
  obtain ⟨b, hb, _, haddr, hlen, _⟩ := slot_access cfg m bprm ra mem0 h _ hk
  obtain ⟨x, hx, _, hxa, hxl⟩ := trace_from_writes cfg m bprm ra mem0 b hb
  have h4 := Nat.div_mul_le_self
    (m.target_stkbas + m.target_stksiz - argv_base cfg (pagesz_p cfg m bprm)) cfg.W
  have h5 : m.target_stkbas + m.target_stksiz - argv_base cfg (pagesz_p cfg m bprm) <
      (m.target_stkbas + m.target_stksiz - argv_base cfg (pagesz_p cfg m bprm)) / cfg.W
        * cfg.W + cfg.W := by
    have := Nat.lt_div_mul_add hW
      (a := m.target_stkbas + m.target_stksiz - argv_base cfg (pagesz_p cfg m bprm))
    omega
  have hfs : cfg.W ≤ fixed_size cfg bprm := by unfold fixed_size; omega
  have hat : argv_base cfg (pagesz_p cfg m bprm) ≤ m.target_stkbas + m.target_stksiz := by
    rw [ea, e6]; omega
  rw [add_ul_eq cfg _ _ (by omega)] at haddr
  have hr := hwr x hx
  rw [← hxa, ← hxl] at hr
  have hbyte := writable_range_byte _ _ _ hr
    (m.target_stkbas + m.target_stksiz - b.addr) (by omega)
  rw [show b.addr + (m.target_stkbas + m.target_stksiz - b.addr) =
    m.target_stkbas + m.target_stksiz by omega] at hbyte
  have := hw _ (Nat.le_refl _)
  rw [hbyte] at this
  exact Bool.noConfusion this

/-- C8 as stated fails inside the region: on a region ending at
`0x7ffffffff004` of which only the bytes of the region are writable, with one
argument of 262143 bytes (`stringspace = TARGET_ARG_MAX`), the call returns 0,
the string is copied to the returned stack pointer 140737488084896 and ends at
140737488347040, and slot 0 of the argument pointer table is stored at
140737488347036, below the last four string bytes. -/
theorem ordering_counterexample :
    (setup_initial_stack amd64 machine_odd_strict (request_long 262143) true guest0).rc = 0 ∧
    (setup_initial_stack amd64 machine_odd_strict (request_long 262143) true guest0).ret =
      some 140737488084896 ∧
    (⟨Kind.string, 140737488084896, 262144, true⟩ : Access) ∈
      (setup_initial_stack amd64 machine_odd_strict (request_long 262143) true
        guest0).guest.trace ∧
    (⟨Kind.vector, 140737488347036, 8, true⟩ : Access) ∈
      (setup_initial_stack amd64 machine_odd_strict (request_long 262143) true
        guest0).guest.trace ∧
    140737488347036 < 140737488084896 + 262144 := by
  have hnw : NoWrap amd64 machine_odd_strict (request_long 262143) := ⟨by decide, by decide⟩
  have hss : stringspace (request_long 262143) ≤ amd64.argMax := by
    rw [stringspace_request_long]
    decide
  have hd : dest_base amd64 (pagesz_p amd64 machine_odd_strict (request_long 262143)) =
      140737488084896 := by decide
  have hv : argv_base amd64 (pagesz_p amd64 machine_odd_strict (request_long 262143)) =
      140737488347036 := by decide
  have hq : pagesz_p amd64 machine_odd_strict (request_long 262143) - amd64.usrSpace -
      amd64.argMax = 140737488084892 := by decide
  have ht : machine_odd_strict.target_stkbas + machine_odd_strict.target_stksiz =
      140737488351236 := by decide
  have h : (setup_initial_stack amd64 machine_odd_strict (request_long 262143) true
      ⟨guest0.mem, []⟩).rc = 0 := by
    apply setup_ok_of_region amd64 machine_odd_strict _ true _ hnw hss (by decide)
    intro a h1 h2
    rw [hq] at h1
    rw [ht] at h2
    exact decide_eq_true ⟨by omega, by omega⟩
  obtain ⟨a1, a2⟩ := request_long_accesses amd64 machine_odd_strict 262143 true guest0.mem h
  have hr := (setup_rc_zero amd64 machine_odd_strict _ true _ h).2.2.2.2.1
  have hg : (⟨guest0.mem, []⟩ : Guest) = guest0 := rfl
  have hn : 262143 + 1 = 262144 := by norm_num
  rw [hd, hn, hg] at a1
  rw [hv, hg] at a2
  rw [hd, hg] at hr
  rw [hg] at h
  exact ⟨h, hr, a1, a2, by decide⟩

/-- C8, amended: after a call that returns 0, when the address arithmetic does
not wrap, the string block ends at or below the argument pointer table and the
pointer tables end at or below the region top, the summary record is written at
the top `sizeof(struct target_ps_strings)` bytes of the region and no access
ends above the region top; the returned stack pointer is the address of the
first string copy and no access starts below it; and every access that is not
a string copy starts at or above the end of every string copy. -/
theorem ordering_of_layout (cfg : Config) (m : Machine) (bprm : BsdBinprm)
    (ra : Bool) (mem0 : Nat → Nat)
    (h : (setup_initial_stack cfg m bprm ra ⟨mem0, []⟩).rc = 0)
    (hnw : NoWrap cfg m bprm)
    (hS : dest_base cfg (pagesz_p cfg m bprm) + stringspace bprm ≤
      argv_base cfg (pagesz_p cfg m bprm))
    (hT : tables_end cfg m bprm ≤ m.target_stkbas + m.target_stksiz) :
    (⟨Kind.psstrings, m.target_stkbas + m.target_stksiz - sizeof_ps_strings cfg,
        sizeof_ps_strings cfg, true⟩ : Access) ∈
      (setup_initial_stack cfg m bprm ra ⟨mem0, []⟩).guest.trace ∧
    (∀ b ∈ (setup_initial_stack cfg m bprm ra ⟨mem0, []⟩).guest.trace,
      b.addr + b.len ≤ m.target_stkbas + m.target_stksiz) ∧
    (setup_initial_stack cfg m bprm ra ⟨mem0, []⟩).ret =
      (if ra then some (dest_base cfg (pagesz_p cfg m bprm)) else none) ∧
    (∀ s rest, bprm.argv ++ bprm.envp = s :: rest →
      (⟨Kind.string, dest_base cfg (pagesz_p cfg m bprm), strlen s + 1, true⟩ : Access) ∈
        (setup_initial_stack cfg m bprm ra ⟨mem0, []⟩).guest.trace) ∧
    (∀ b ∈ (setup_initial_stack cfg m bprm ra ⟨mem0, []⟩).guest.trace,
      dest_base cfg (pagesz_p cfg m bprm) ≤ b.addr) ∧
    (∀ b ∈ (setup_initial_stack cfg m bprm ra ⟨mem0, []⟩).guest.trace,
      ∀ c ∈ (setup_initial_stack cfg m bprm ra ⟨mem0, []⟩).guest.trace,
      b.kind = Kind.string → c.kind ≠ Kind.string → b.addr + b.len ≤ c.addr) := by
  obtain ⟨o1, o2, o3⟩ := ordering_when_separate cfg m bprm ra mem0 h hnw hS hT
  obtain ⟨e0, hfit, e6⟩ := stack_hi_nowrap cfg m bprm hnw
  obtain ⟨ea, hlo, hhi, _⟩ := bases_nowrap cfg m bprm hnw
  obtain ⟨_, hss, hall, _, hret, _⟩ := setup_rc_zero cfg m bprm ra _ h
  have h1 := hnw.1
  have h2 := hnw.2
  refine ⟨o1, o2, hret, ?_, ?_, o3⟩
  · intro s rest hs
    cases hargv : bprm.argv with
    | cons s2 rest2 =>
      rw [hargv] at hs
      have hi : 0 < bprm.argv.length := by rw [hargv]; simp
      have hm := (loop_slot_mem cfg bprm.argv (dest_base cfg (pagesz_p cfg m bprm))
        (argv_base cfg (pagesz_p cfg m bprm)) 0 (argv_base_lt _ _) hi).2
      have a1 := access_mem_trace cfg m bprm ra mem0 h _ (argv_loop_mem cfg m bprm _ hm)
      have e2 : bprm.argv.get ⟨0, hi⟩ = s := by
        simp only [List.cons_append, List.cons.injEq] at hs
        simp [hargv, hs.1]
      rw [e2] at a1
      simpa [Wr.access, dest_end, cbytes, strlen] using a1
    | nil =>
      rw [hargv] at hs
      simp only [List.nil_append] at hs
      have hi : 0 < bprm.envp.length := by rw [hs]; simp
      have hm := (loop_slot_mem cfg bprm.envp
        (dest_end cfg bprm.argv (dest_base cfg (pagesz_p cfg m bprm)))
        (env_base cfg m bprm) 0 (env_base_lt cfg m bprm) hi).2
      have a1 := access_mem_trace cfg m bprm ra mem0 h _ (envp_loop_mem cfg m bprm _ hm)
      have e2 : bprm.envp.get ⟨0, hi⟩ = s := by simp [hs]
      rw [e2] at a1
      simpa [Wr.access, dest_end, cbytes, strlen, hargv] using a1
  · intro b hb
    obtain ⟨x, hx, _, ha, _⟩ := trace_from_writes cfg m bprm ra mem0 b hb
    rw [ha]
    rw [hall] at hx
    rcases List.mem_append.1 hx with hx | hx
    · have := fixed_writes_range cfg m bprm (by omega) x hx
      omega
    · have hps := (cursors_fit cfg m bprm (by omega)).1
      have hW : 0 < cfg.W := by rcases W_cases cfg with ⟨h, _⟩ | ⟨h, _⟩ <;> omega
      have hfs : sizeof_ps_strings cfg + cfg.W ≤ fixed_size cfg bprm := by
        unfold fixed_size; omega
      rcases string_writes_layout cfg m bprm (by omega) (by omega) x hx with
        ⟨_, h3, _⟩ | ⟨_, h3, _⟩ | ⟨_, h3, _⟩
      · omega
      · omega
      · omega

theorem ordering_of_layout_witness :
    (setup_initial_stack amd64 machine1 request1 true ⟨guest0.mem, []⟩).rc = 0 ∧
    NoWrap amd64 machine1 request1 ∧
    dest_base amd64 (pagesz_p amd64 machine1 request1) + stringspace request1 ≤
      argv_base amd64 (pagesz_p amd64 machine1 request1) ∧
    tables_end amd64 machine1 request1 ≤ machine1.target_stkbas + machine1.target_stksiz ∧
    ∀ b ∈ (setup_initial_stack amd64 machine1 request1 true ⟨guest0.mem, []⟩).guest.trace,
      dest_base amd64 (pagesz_p amd64 machine1 request1) ≤ b.addr :=
  ⟨by decide, ⟨by decide, by decide⟩, by decide, by decide,
    (ordering_of_layout amd64 machine1 request1 true guest0.mem (by decide)
      ⟨by decide, by decide⟩ (by decide) (by decide)).2.2.2.2.1⟩

/-! ### Requests with many arguments -/

set_option maxRecDepth 100000

/-- C1 fails on the code: with 522 empty arguments on FreeBSD/amd64 the call
returns 0 and `stringspace = 522` is within `TARGET_ARG_MAX`, but word 521 of
the argument pointer table lies where the summary record is stored last; it
reads `ps_argvstr`, and the byte at that address is not the NUL of the empty
string `argv[521]`. -/
theorem round_trip_failing_input :
    (setup_initial_stack amd64 machine1 (request_many 522) true guest0).rc = 0 ∧
    stringspace (request_many 522) ≤ amd64.argMax ∧
    (read_ps_strings amd64
      (setup_initial_stack amd64 machine1 (request_many 522) true guest0).guest.mem
      (ps_addr amd64 machine1)).ps_argvstr = 140737488347032 ∧
    read_ual amd64 (setup_initial_stack amd64 machine1 (request_many 522) true guest0).guest.mem
      (140737488347032 + 521 * amd64.W) = 140737488347032 ∧
    read_bytes (setup_initial_stack amd64 machine1 (request_many 522) true guest0).guest.mem
      140737488347032 1 = [152] ∧
    cbytes ((request_many 522).argv.get ⟨521, by decide⟩) = [0] := by
  decide

/-- C3 fails on the code: with 521 empty arguments on FreeBSD/amd64 the call
returns 0, the summary record reports 521 arguments, and slot 521 of the
argument pointer table, which should hold the terminating null pointer, reads
`ps_argvstr` because the summary record is stored over it. -/
theorem null_termination_failing_input :
    (setup_initial_stack amd64 machine1 (request_many 521) true guest0).rc = 0 ∧
    (read_ps_strings amd64
      (setup_initial_stack amd64 machine1 (request_many 521) true guest0).guest.mem
      (ps_addr amd64 machine1)).ps_argvstr = 140737488347032 ∧
    (read_ps_strings amd64
      (setup_initial_stack amd64 machine1 (request_many 521) true guest0).guest.mem
      (ps_addr amd64 machine1)).ps_nargvstr = 521 ∧
    read_ual amd64 (setup_initial_stack amd64 machine1 (request_many 521) true guest0).guest.mem
      (140737488347032 + 521 * amd64.W) = 140737488347032 := by
  decide

/-- The pointer tables pass the region top when stores above it are accepted:
with 525 empty arguments on FreeBSD/amd64 and every address below
`0x800000000000` writable the call returns 0, slot 522 of the argument pointer
table is written inside the bytes of the summary record, and the terminator of
the table is written at the region top `target_stkbas + target_stksiz`. -/
theorem tables_past_top_when_accepted :
    (setup_initial_stack amd64 machine1 (request_many 525) true guest0).rc = 0 ∧
    machine1.target_stkbas + machine1.target_stksiz = 140737488351232 ∧
    (⟨Kind.psstrings, 140737488351200, 32, true⟩ : Access) ∈
      (setup_initial_stack amd64 machine1 (request_many 525) true guest0).guest.trace ∧
    (⟨Kind.vector, 140737488351208, 8, true⟩ : Access) ∈
      (setup_initial_stack amd64 machine1 (request_many 525) true guest0).guest.trace ∧
    (⟨Kind.nullptr, 140737488351232, 8, true⟩ : Access) ∈
      (setup_initial_stack amd64 machine1 (request_many 525) true guest0).guest.trace := by
  decide

/-- C15 fails on the code: with 522 empty arguments on FreeBSD/amd64 the call
returns 0 and the returned stack pointer is `d = 140737488084888`, but slot 521
of the argument pointer table lies where the summary record is stored last and
holds `ps_argvstr = 140737488347032`, not `d` plus the sum of `strlen + 1` over
the 521 arguments before it, which is `d + 521`. -/
theorem string_block_failing_input :
    (setup_initial_stack amd64 machine1 (request_many 522) true guest0).rc = 0 ∧
    (setup_initial_stack amd64 machine1 (request_many 522) true guest0).ret =
      some 140737488084888 ∧
    (((request_many 522).argv.take 521).map (fun s => strlen s + 1)).sum = 521 ∧
    read_ual amd64 (setup_initial_stack amd64 machine1 (request_many 522) true guest0).guest.mem
      ((read_ps_strings amd64
        (setup_initial_stack amd64 machine1 (request_many 522) true guest0).guest.mem
        (ps_addr amd64 machine1)).ps_argvstr + 521 * amd64.W) = 140737488347032 ∧
    140737488347032 ≠ 140737488084888 + 521 := by
  decide


end TargetOsStack
